import Mathlib

set_option maxHeartbeats 1000000

/-!
A verification development for the `safehtml` JSON wrapper (`json.go`).

The repository's one source file defines an immutable wrapper type `JSON`
around a Go string together with a small set of constructors:

  * `JSONFromConstant` — wraps a compile-time string constant verbatim;
  * `JSONFromValue`    — parse-and-re-emit through Go's `encoding/json`
    (`json.Unmarshal` into `any`, then `json.Marshal`);
  * `JSONEscaped`      — wraps `coerceToUTF8InterchangeValid(text)`;
  * `EmptyObjectJSON`, `EmptyArrayJSON` — fixed literals `{}` and `[]`;
  * `JSONConcat`       — string concatenation of the wrapped values;
  * `String`           — the read accessor returning the wrapped string.

Go strings are modelled at two levels of abstraction:

  * as sequences of Unicode scalar values (Lean `String` / `List Char`)
    for the JSON parse/serialize pipeline, where the text is UTF-8;
  * as raw byte sequences (`List Nat`, each entry < 256) for
    `JSONEscaped`, whose contract is specifically about invalid UTF-8.

The external collaborators (`encoding/json`'s `Unmarshal`/`Marshal`) and
the package-internal helper `coerceToUTF8InterchangeValid` are not part
of the source file; they are modelled below from their documented
contracts, each marked `Modelled from the spec:` in its doc comment.
-/

/-- Abbreviation for Lean's string type, usable inside the `JSON`
namespace where the bare name `String` would be shadowed by the
accessor `JSON.String`. -/
abbrev Str := String

/-- The `JSON` type from `json.go`: a struct wrapping a single string
field `str`.  Immutability is automatic in the embedding. -/
structure JSON where
  str : Str
deriving DecidableEq

/-- The read accessor `func (h JSON) String() string { return h.str }`. -/
def JSON.String (h : JSON) : Str := h.str

/-- Modelled from the spec: the unexported `stringConstant` type of the
safehtml package (declared outside `json.go`, not present in `src/`).
It is a distinct string-carrying type that callers can only populate
with compile-time string literals; its runtime content is just the
literal's text. -/
structure stringConstant where
  lit : Str
deriving DecidableEq

/-- `func JSONFromConstant(str stringConstant) JSON` — wraps the
constant's text verbatim, with no validation. -/
def JSONFromConstant (str : stringConstant) : JSON :=
  { str := str.lit }

/-- `func EmptyObjectJSON() JSON { return JSON{"{}"} }`. -/
def EmptyObjectJSON : JSON := { str := "\x7b\x7d" }

/-- `func EmptyArrayJSON() JSON { return JSON{"[]"} }`. -/
def EmptyArrayJSON : JSON := { str := "[]" }

/-- `func JSONConcat(jsons ...JSON) JSON` — writes each argument's
`String()` into a buffer, in order, and wraps the result.  The Go
variadic parameter becomes a `List JSON`. -/
def JSONConcat (jsons : List JSON) : JSON :=
  { str := jsons.foldl (fun b j => b ++ j.String) "" }

/- Helper: the buffer fold computes plain left-to-right concatenation. -/

theorem jsonConcat_foldl (jsons : List JSON) (acc : Str) :
    jsons.foldl (fun b j => b ++ j.String) acc
      = acc ++ (jsons.map JSON.String).foldr (· ++ ·) "" := by
  induction jsons generalizing acc with
  | nil => simp
  | cons j rest ih =>
      simp only [List.foldl_cons, List.map_cons, List.foldr_cons]
      rw [ih]
      rw [String.append_assoc]

theorem jsonConcat_str (jsons : List JSON) :
    (JSONConcat jsons).String = (jsons.map JSON.String).foldr (· ++ ·) "" := by
  have h := jsonConcat_foldl jsons ""
  simpa [JSONConcat, JSON.String] using h

/-- Claim C5: `JSONConcat` concatenates the `String()` forms of its
arguments in order with no separators; with zero arguments it yields
the empty string, and `JSONConcat(EmptyObjectJSON(), EmptyArrayJSON())`
yields `"{}[]"`. -/
theorem C5_concat_is_literal_concatenation :
    (∀ jsons : List JSON,
        (JSONConcat jsons).String = (jsons.map JSON.String).foldr (· ++ ·) "")
    ∧ (JSONConcat []).String = ""
    ∧ (JSONConcat [EmptyObjectJSON, EmptyArrayJSON]).String = "\x7b\x7d[]" := by
  refine ⟨jsonConcat_str, ?_, ?_⟩
  · rfl
  · rfl

/-- Claim C6: `JSONFromConstant` performs no validation and no
transformation — the `String()` of the result is the constant's text
verbatim, and the accessor `String()` returns the wrapped text
unchanged. -/
theorem C6_from_constant_verbatim :
    (∀ c : stringConstant, (JSONFromConstant c).String = c.lit)
    ∧ (∀ j : JSON, j.String = j.str) := by
  exact ⟨fun _ => rfl, fun _ => rfl⟩

/-- Claim C7: the empty-literal constructors are fixed total values:
`EmptyObjectJSON().String() = "{}"` and `EmptyArrayJSON().String() = "[]"`. -/
theorem C7_empty_literals :
    EmptyObjectJSON.String = "\x7b\x7d" ∧ EmptyArrayJSON.String = "[]" := by
  exact ⟨rfl, rfl⟩

theorem jsonConcat_pair (a b : JSON) :
    (JSONConcat [a, b]).String = a.String ++ b.String := by
  simp [jsonConcat_str]

/-! ### Byte-level model of `JSONEscaped`

`JSONEscaped` wraps `coerceToUTF8InterchangeValid(text)`.  That helper
lives in the package's `coerce.go`, which is not part of the source
file; it is modelled from the spec below.  Because its contract is
specifically about invalid UTF-8 byte sequences, this part of the
development models Go strings as raw byte sequences (`List Nat`). -/

/-- A byte is a UTF-8 continuation byte (`10xxxxxx`). -/
def isCont (b : Nat) : Bool := 0x80 ≤ b && b < 0xC0

/-- Allowed second byte after a three-byte lead `b`: the restricted
ranges after `0xE0` (no overlong encodings) and `0xED` (no surrogate
code points), plain continuation otherwise. -/
def cont3Ok (b b1 : Nat) : Bool :=
  if b = 0xE0 then 0xA0 ≤ b1 && b1 < 0xC0
  else if b = 0xED then 0x80 ≤ b1 && b1 < 0xA0
  else isCont b1

/-- Allowed second byte after a four-byte lead `b`: the restricted
ranges after `0xF0` (no overlong encodings) and `0xF4` (nothing above
U+10FFFF), plain continuation otherwise. -/
def cont4Ok (b b1 : Nat) : Bool :=
  if b = 0xF0 then 0x90 ≤ b1 && b1 < 0xC0
  else if b = 0xF4 then 0x80 ≤ b1 && b1 < 0x90
  else isCont b1

/-- Split one well-formed UTF-8 sequence off the front of a byte list,
returning the sequence and the remainder; `none` when the input does
not start with a well-formed sequence.  The branch structure encodes
the Unicode well-formed byte-sequence table: no lead bytes
`0x80`–`0xC1` or `0xF5`–`0xFF`, no overlong encodings (the `0xE0` and
`0xF0` rows), no surrogate code points (the `0xED` row), nothing above
U+10FFFF (the `0xF4` row). -/
def utf8Split : List Nat → Option (List Nat × List Nat)
  | [] => none
  | b :: r =>
    if b < 0x80 then some ([b], r)
    else if 0xC2 ≤ b && b < 0xE0 then
      match r with
      | b1 :: r1 => if isCont b1 then some ([b, b1], r1) else none
      | [] => none
    else if 0xE0 ≤ b && b < 0xF0 then
      match r with
      | b1 :: b2 :: r2 =>
          if cont3Ok b b1 && isCont b2 then some ([b, b1, b2], r2) else none
      | _ => none
    else if 0xF0 ≤ b && b < 0xF5 then
      match r with
      | b1 :: b2 :: b3 :: r3 =>
          if cont4Ok b b1 && isCont b2 && isCont b3 then
            some ([b, b1, b2, b3], r3)
          else none
      | _ => none
    else none

theorem utf8Split_some {bs c rest : List Nat}
    (h : utf8Split bs = some (c, rest)) :
    bs = c ++ rest ∧ rest.length < bs.length := by
  match bs with
  | [] => simp [utf8Split] at h
  | b :: r =>
      simp only [utf8Split] at h
      split at h
      · simp only [Option.some.injEq, Prod.mk.injEq] at h
        obtain ⟨hc, hr⟩ := h
        subst hc
        subst hr
        exact ⟨rfl, by simp only [List.length_cons]; omega⟩
      · split at h
        · split at h
          · split at h
            · simp only [Option.some.injEq, Prod.mk.injEq] at h
              obtain ⟨hc, hr⟩ := h
              subst hc
              subst hr
              exact ⟨rfl, by simp only [List.length_cons]; omega⟩
            · exact absurd h (by simp)
          · exact absurd h (by simp)
        · split at h
          · split at h
            · split at h
              · simp only [Option.some.injEq, Prod.mk.injEq] at h
                obtain ⟨hc, hr⟩ := h
                subst hc
                subst hr
                exact ⟨rfl, by simp only [List.length_cons]; omega⟩
              · exact absurd h (by simp)
            · exact absurd h (by simp)
          · split at h
            · split at h
              · split at h
                · simp only [Option.some.injEq, Prod.mk.injEq] at h
                  obtain ⟨hc, hr⟩ := h
                  subst hc
                  subst hr
                  exact ⟨rfl, by simp only [List.length_cons]; omega⟩
                · exact absurd h (by simp)
              · exact absurd h (by simp)
            · exact absurd h (by simp)

/-- The split function only inspects the sequence it returns: the same
sequence followed by anything else splits off the same way. -/
theorem utf8Split_chunk {bs c rest : List Nat}
    (h : utf8Split bs = some (c, rest)) (x : List Nat) :
    utf8Split (c ++ x) = some (c, x) := by
  match bs with
  | [] => simp [utf8Split] at h
  | b :: r =>
      simp only [utf8Split] at h
      split at h
      · rename_i hb
        simp only [Option.some.injEq, Prod.mk.injEq] at h
        obtain ⟨hc, hr⟩ := h
        subst hc
        simp [utf8Split, hb]
      · rename_i hb
        split at h
        · rename_i h2
          split at h
          · split at h
            · rename_i b1 r1 hcont
              simp only [Option.some.injEq, Prod.mk.injEq] at h
              obtain ⟨hc, hr⟩ := h
              subst hc
              simp [utf8Split, hb, h2, hcont]
            · exact absurd h (by simp)
          · exact absurd h (by simp)
        · rename_i h2
          split at h
          · rename_i h3
            split at h
            · split at h
              · rename_i b1 b2 r2 hcont
                simp only [Option.some.injEq, Prod.mk.injEq] at h
                obtain ⟨hc, hr⟩ := h
                subst hc
                simp [utf8Split, hb, h2, h3, hcont]
              · exact absurd h (by simp)
            · exact absurd h (by simp)
          · rename_i h3
            split at h
            · rename_i h4
              split at h
              · split at h
                · rename_i b1 b2 b3 r3 hcont
                  simp only [Option.some.injEq, Prod.mk.injEq] at h
                  obtain ⟨hc, hr⟩ := h
                  subst hc
                  simp [utf8Split, hb, h2, h3, h4, hcont]
                · exact absurd h (by simp)
              · exact absurd h (by simp)
            · exact absurd h (by simp)

theorem utf8Split_none_head {b : Nat} {r : List Nat}
    (h : utf8Split (b :: r) = none) : ¬ b < 0x80 := by
  intro hb
  simp [utf8Split, hb] at h

/-- Modelled from the spec: the UTF-8 interchange coercion underlying
`coerceToUTF8InterchangeValid` (defined in the package's `coerce.go`,
which is not present in `src/`).  Per the spec it "applies a
Unicode-normalization/coercion step that guarantees the result is
valid, interchange-safe UTF-8 (replacing or stripping invalid
sequences per a defined policy)".  The policy modelled here is the one
Go's `unicode/utf8` decoding uses: a well-formed sequence passes
through verbatim; at an ill-formed sequence, one byte is consumed and
replaced by U+FFFD (encoded `EF BF BD`), and decoding resumes at the
next byte. -/
def utf8Coerce : List Nat → List Nat
  | [] => []
  | b :: r =>
    match h : utf8Split (b :: r) with
    | some (chunk, rest) => chunk ++ utf8Coerce rest
    | none => 0xEF :: 0xBF :: 0xBD :: utf8Coerce r
termination_by bs => bs.length
decreasing_by
· exact (utf8Split_some h).2
· simp

/-- A byte sequence is interchange-valid UTF-8 when it decomposes,
front to back, into well-formed sequences of the table in
`utf8Split`. -/
def utf8Valid : List Nat → Bool
  | [] => true
  | b :: r =>
    match h : utf8Split (b :: r) with
    | some (_, rest) => utf8Valid rest
    | none => false
termination_by bs => bs.length
decreasing_by
· exact (utf8Split_some h).2

/-- Modelled from the spec: `coerceToUTF8InterchangeValid` (from the
package's `coerce.go`, not present in `src/`) coerces text to
interchange-valid UTF-8, replacing invalid sequences. -/
def coerceToUTF8InterchangeValid (text : List Nat) : List Nat :=
  utf8Coerce text

/-- Byte-level view of the `JSON` struct: the same single-field wrapper,
with the wrapped Go string exposed as its raw bytes. -/
structure JSONBytes where
  str : List Nat
deriving DecidableEq

/-- Byte-level view of the accessor `func (h JSON) String() string`. -/
def JSONBytes.String (h : JSONBytes) : List Nat := h.str

/-- `func JSONEscaped(text string) JSON` from `json.go`: it returns
`JSON{coerceToUTF8InterchangeValid(text)}`; the escaping step present
in the doc comment is commented out in the source. -/
def JSONEscaped (text : List Nat) : JSONBytes :=
  { str := coerceToUTF8InterchangeValid text }

theorem utf8Coerce_nil : utf8Coerce [] = [] := by
  rw [utf8Coerce.eq_def]

theorem utf8Coerce_cons_some {b : Nat} {r chunk rest : List Nat}
    (h : utf8Split (b :: r) = some (chunk, rest)) :
    utf8Coerce (b :: r) = chunk ++ utf8Coerce rest := by
  rw [utf8Coerce.eq_def]
  split
  · rename_i heq
    exact absurd heq (by simp)
  · rename_i b2 r2 heq
    injection heq with hb hr
    subst hb
    subst hr
    split
    · rename_i chunk2 rest2 heq2
      rw [h] at heq2
      simp only [Option.some.injEq, Prod.mk.injEq] at heq2
      rw [heq2.1, heq2.2]
    · rename_i heq2
      rw [h] at heq2
      exact absurd heq2 (by simp)

theorem utf8Coerce_cons_none {b : Nat} {r : List Nat}
    (h : utf8Split (b :: r) = none) :
    utf8Coerce (b :: r) = 0xEF :: 0xBF :: 0xBD :: utf8Coerce r := by
  rw [utf8Coerce.eq_def]
  split
  · rename_i heq
    exact absurd heq (by simp)
  · rename_i b2 r2 heq
    injection heq with hb hr
    subst hb
    subst hr
    split
    · rename_i chunk2 rest2 heq2
      rw [h] at heq2
      exact absurd heq2 (by simp)
    · rfl

theorem utf8Valid_nil : utf8Valid [] = true := by
  rw [utf8Valid.eq_def]

theorem utf8Valid_cons_some {b : Nat} {r chunk rest : List Nat}
    (h : utf8Split (b :: r) = some (chunk, rest)) :
    utf8Valid (b :: r) = utf8Valid rest := by
  rw [utf8Valid.eq_def]
  split
  · rename_i heq
    exact absurd heq (by simp)
  · rename_i b2 r2 heq
    injection heq with hb hr
    subst hb
    subst hr
    split
    · rename_i chunk2 rest2 heq2
      rw [h] at heq2
      simp only [Option.some.injEq, Prod.mk.injEq] at heq2
      rw [heq2.2]
    · rename_i heq2
      rw [h] at heq2
      exact absurd heq2 (by simp)

/-- A well-formed chunk (as returned by `utf8Split`) can be peeled off
the front of any byte list without affecting validity of the rest. -/
theorem utf8Valid_chunk {bs c rest : List Nat}
    (h : utf8Split bs = some (c, rest)) (x : List Nat) :
    utf8Valid (c ++ x) = utf8Valid x := by
  have hcx := utf8Split_chunk h x
  match c with
  | [] =>
      have := (@utf8Split_some ([] ++ x) [] x (by simpa using hcx)).2
      simp only [List.nil_append] at this
      omega
  | hc :: ct =>
      exact utf8Valid_cons_some hcx

theorem utf8Split_fffd :
    utf8Split [0xEF, 0xBF, 0xBD] = some ([0xEF, 0xBF, 0xBD], []) := by
  decide

theorem utf8Coerce_valid (bs : List Nat) : utf8Valid (utf8Coerce bs) = true := by
  induction bs using utf8Coerce.induct with
  | case1 => rw [utf8Coerce_nil, utf8Valid_nil]
  | case2 b r chunk rest h ih =>
      rw [utf8Coerce_cons_some h, utf8Valid_chunk h]
      exact ih
  | case3 b r h ih =>
      rw [utf8Coerce_cons_none h]
      have hfffd := utf8Valid_chunk utf8Split_fffd (utf8Coerce r)
      simpa using hfffd.trans ih

theorem utf8Coerce_count_ascii (a : Nat) (ha : a < 0x80) (bs : List Nat) :
    (utf8Coerce bs).count a = bs.count a := by
  induction bs using utf8Coerce.induct with
  | case1 => rw [utf8Coerce_nil]
  | case2 b r chunk rest h ih =>
      rw [utf8Coerce_cons_some h, (utf8Split_some h).1,
        List.count_append, List.count_append, ih]
  | case3 b r h ih =>
      rw [utf8Coerce_cons_none h]
      have hb := utf8Split_none_head h
      have h1 : (0xEF == a) = false := by
        simp only [beq_eq_false_iff_ne, ne_eq]
        omega
      have h2 : (0xBF == a) = false := by
        simp only [beq_eq_false_iff_ne, ne_eq]
        omega
      have h3 : (0xBD == a) = false := by
        simp only [beq_eq_false_iff_ne, ne_eq]
        omega
      have h4 : (b == a) = false := by
        simp only [beq_eq_false_iff_ne, ne_eq]
        omega
      simp only [List.count_cons, h1, h2, h3, h4, ih]
      simp

/-- Claim C3: `JSONEscaped` applies no character escaping: its
`String()` is exactly the UTF-8 interchange coercion of the input, and
each of the characters `&` `<` `>` `'` `"` `\\` occurs in the output
exactly as often as in the input (ASCII bytes pass through the
coercion verbatim), despite the constructor's name and doc comment. -/
theorem C3_escaped_does_not_escape :
    ∀ t : List Nat,
      (JSONEscaped t).String = coerceToUTF8InterchangeValid t
      ∧ (JSONEscaped t).String.count 38 = t.count 38
      ∧ (JSONEscaped t).String.count 60 = t.count 60
      ∧ (JSONEscaped t).String.count 62 = t.count 62
      ∧ (JSONEscaped t).String.count 39 = t.count 39
      ∧ (JSONEscaped t).String.count 34 = t.count 34
      ∧ (JSONEscaped t).String.count 92 = t.count 92 := by
  intro t
  refine ⟨rfl, ?_, ?_, ?_, ?_, ?_, ?_⟩ <;>
    exact utf8Coerce_count_ascii _ (by omega) t

/-- Claim C4: `JSONEscaped` is total — a pure function with no failure
channel — and for every input byte sequence, including ill-formed
UTF-8, its `String()` is interchange-valid UTF-8: it decomposes into
well-formed sequences, which excludes invalid encodings, overlong
forms, and (un)paired surrogate code points by the `0xED` row of the
table in `utf8Split`. -/
theorem C4_escaped_total_and_interchange_valid :
    ∀ t : List Nat, utf8Valid ((JSONEscaped t).String) = true := by
  intro t
  exact utf8Coerce_valid t

/-! ### Char-level model of `JSONFromValue`

`JSONFromValue` delegates to Go's `encoding/json`: `json.Unmarshal`
into a generic `any` tree, then `json.Marshal`.  The spec treats these
as external collaborators ("a strict JSON parser" and "a canonical
JSON encoder", both "treated as opaque, already-correct services").
They are modelled below from those contracts together with the
documented behavior of `encoding/json`; this part of the development
models Go strings as sequences of Unicode scalar values (`List Char`),
which is faithful for interchange text.

The generic value tree `json.Unmarshal` produces for `any` holds
`nil`, `bool`, `float64`, `string`, `[]any` and `map[string]any`.  It
is modelled by `GoVal`: numbers as exact decimals `m * 10 ^ e` kept in
canonical form (trailing zeros stripped into the exponent, `-0`
identified with `0`), and maps as association lists kept sorted by key
(Go's map is unordered and `json.Marshal` emits keys sorted, so the
sorted association list is the canonical representative; duplicate
keys follow Go's last-one-wins map assignment). -/

/-- The generic value tree produced by decoding JSON into `any`. -/
inductive GoVal where
  | null : GoVal
  | boolean : Bool → GoVal
  | num : Int → Int → GoVal
  | str : List Char → GoVal
  | arr : List GoVal → GoVal
  | obj : List (List Char × GoVal) → GoVal

/-- JSON whitespace (Go's scanner: space, tab, newline, carriage return). -/
def isWS (c : Char) : Bool := c = ' ' || c = '\t' || c = '\n' || c = '\r'

def skipWS : List Char → List Char
  | [] => []
  | c :: r => if isWS c then skipWS r else c :: r

def isDigit (c : Char) : Bool := '0' ≤ c && c ≤ '9'

/-- Collect a maximal run of decimal digits. -/
def takeDigits : List Char → List Char × List Char
  | [] => ([], [])
  | c :: r =>
    if isDigit c then
      let p := takeDigits r
      (c :: p.1, p.2)
    else ([], c :: r)

/-- Decimal value of a digit run (most significant first). -/
def digitsToNat (ds : List Char) : Nat :=
  ds.foldl (fun a c => 10 * a + (c.toNat - 48)) 0

/-- Match a literal suffix (used for `null`, `true`, `false`). -/
def stripLit : List Char → List Char → Option (List Char)
  | [], cs => some cs
  | p :: ps, c :: cs => if c = p then stripLit ps cs else none
  | _ :: _, [] => none

/-- Hexadecimal digit value (`0-9a-fA-F`), as in Go's `getu4`. -/
def hexVal (c : Char) : Option Nat :=
  if '0' ≤ c && c ≤ '9' then some (c.toNat - 48)
  else if 'a' ≤ c && c ≤ 'f' then some (c.toNat - 87)
  else if 'A' ≤ c && c ≤ 'F' then some (c.toNat - 55)
  else none

def hex4 (a b c d : Char) : Option Nat :=
  match hexVal a, hexVal b, hexVal c, hexVal d with
  | some x, some y, some z, some w => some (4096 * x + 256 * y + 16 * z + w)
  | _, _, _, _ => none

/-- Simple escapes accepted after a backslash in a JSON string. -/
def escChar (e : Char) : Option Char :=
  if e = '"' then some '"'
  else if e = '\\' then some '\\'
  else if e = '/' then some '/'
  else if e = 'b' then some (Char.ofNat 8)
  else if e = 'f' then some (Char.ofNat 12)
  else if e = 'n' then some (Char.ofNat 10)
  else if e = 'r' then some (Char.ofNat 13)
  else if e = 't' then some (Char.ofNat 9)
  else none

/-- After a `\uXXXX` escape whose value `n` is a surrogate, Go's
`unquote` tries to pair it with an immediately following `\uXXXX` low
surrogate (`utf16.DecodeRune`); on failure it writes U+FFFD and
consumes only the first escape. -/
def surrPair (n : Nat) (r3 : List Char) : Char × List Char :=
  match r3 with
  | s1 :: s2 :: a2 :: b2 :: c3 :: d2 :: r4 =>
    if s1 = '\\' && s2 = 'u' then
      match hex4 a2 b2 c3 d2 with
      | some m =>
          if n < 0xDC00 && (0xDC00 ≤ m && m < 0xE000) then
            (Char.ofNat (0x10000 + (n - 0xD800) * 0x400 + (m - 0xDC00)), r4)
          else (Char.ofNat 0xFFFD, r3)
      | none => (Char.ofNat 0xFFFD, r3)
    else (Char.ofNat 0xFFFD, r3)
  | _ => (Char.ofNat 0xFFFD, r3)

/-- Fueled JSON string-body parser (the opening quote already
consumed), modelling Go's scanner checks (no raw control characters)
and `unquoteBytes` (escape processing, surrogate pairing with U+FFFD
substitution for unpaired surrogates).  One unit of fuel is spent per
produced character, so `length input + 1` fuel always suffices. -/
def parseStrF : Nat → List Char → Option (List Char × List Char)
  | 0, _ => none
  | Nat.succ f, cs =>
    match cs with
    | [] => none
    | c :: r =>
      if c = '"' then some ([], r)
      else if c = '\\' then
        match r with
        | [] => none
        | e :: r2 =>
          if e = 'u' then
            match r2 with
            | a :: b :: c2 :: d :: r3 =>
              match hex4 a b c2 d with
              | none => none
              | some n =>
                  if n < 0xD800 || 0xE000 ≤ n then
                    (parseStrF f r3).map (fun p => (Char.ofNat n :: p.1, p.2))
                  else
                    (parseStrF f (surrPair n r3).2).map
                      (fun p => ((surrPair n r3).1 :: p.1, p.2))
            | _ => none
          else
            match escChar e with
            | some ec => (parseStrF f r2).map (fun p => (ec :: p.1, p.2))
            | none => none
      else if c.toNat < 0x20 then none
      else (parseStrF f r).map (fun p => (c :: p.1, p.2))

/-- Strip factors of ten from a decimal mantissa into the exponent
(fueled; `n` itself is always enough fuel since each step divides the
mantissa by ten). -/
def canonNF : Nat → Nat → Int → Nat × Int
  | 0, _, _ => (0, 0)
  | Nat.succ f, n, e =>
    if n = 0 then (0, 0)
    else if n % 10 = 0 then canonNF f (n / 10) (e + 1)
    else (n, e)

/-- Canonical decimal mantissa/exponent pair, mirroring the
canonicalization float64 performs on decimal input (distinct
spellings of one number collapse to one value). -/
def canonN (n : Nat) (e : Int) : Nat × Int := canonNF n n e

/-- Build the number value from sign, decimal mantissa and exponent. -/
def mkNum (neg : Bool) (n : Nat) (e : Int) : GoVal :=
  let p := canonN n e
  GoVal.num (if neg then -(p.1 : Int) else (p.1 : Int)) p.2

/-- Parse an optional fraction part, folding it into the mantissa. -/
def parseFrac (intval : Nat) (cs : List Char) : Option (Nat × Int × List Char) :=
  match cs with
  | [] => some (intval, 0, [])
  | c :: r =>
    if c = '.' then
      match takeDigits r with
      | ([], _) => none
      | (ds, rest) =>
          some (intval * 10 ^ ds.length + digitsToNat ds, -(ds.length : Int), rest)
    else some (intval, 0, c :: r)

/-- Parse an optional exponent part. -/
def parseExp (cs : List Char) : Option (Int × List Char) :=
  match cs with
  | [] => some (0, [])
  | c :: r =>
    if c = 'e' || c = 'E' then
      match r with
      | [] => none
      | c2 :: r2 =>
        if c2 = '-' then
          match takeDigits r2 with
          | ([], _) => none
          | (ds, rest) => some (-(digitsToNat ds : Int), rest)
        else if c2 = '+' then
          match takeDigits r2 with
          | ([], _) => none
          | (ds, rest) => some ((digitsToNat ds : Int), rest)
        else
          match takeDigits (c2 :: r2) with
          | ([], _) => none
          | (ds, rest) => some ((digitsToNat ds : Int), rest)
    else some (0, c :: r)

/-- Integer part, fraction and exponent of a JSON number, after the
optional leading minus sign. -/
def parseNumBody (neg : Bool) : List Char → Option (GoVal × List Char)
  | [] => none
  | c :: r =>
    if c = '0' then
      match r with
      | d :: _ =>
          if isDigit d then none
          else
            match parseFrac 0 r with
            | none => none
            | some (m, ef, cs2) =>
              match parseExp cs2 with
              | none => none
              | some (ee, cs3) => some (mkNum neg m (ef + ee), cs3)
      | [] => some (mkNum neg 0 0, [])
    else if isDigit c then
      match takeDigits (c :: r) with
      | (ds, rest) =>
        match parseFrac (digitsToNat ds) rest with
        | none => none
        | some (m, ef, cs2) =>
          match parseExp cs2 with
          | none => none
          | some (ee, cs3) => some (mkNum neg m (ef + ee), cs3)
    else none

/-- Parse a JSON number (ECMA-404 grammar: optional minus, integer part
with no leading zero, optional fraction, optional exponent). -/
def parseNum (cs : List Char) : Option (GoVal × List Char) :=
  match cs with
  | [] => none
  | c :: r => if c = '-' then parseNumBody true r else parseNumBody false (c :: r)

/-- Strict ordering on keys: Go sorts object keys with byte-wise string
comparison, which on UTF-8 agrees with comparison of scalar values. -/
def keyLt : List Char → List Char → Bool
  | [], [] => false
  | [], _ :: _ => true
  | _ :: _, [] => false
  | a :: as, b :: bs =>
    if a.toNat < b.toNat then true
    else if b.toNat < a.toNat then false
    else keyLt as bs

/-- Insert into a key-sorted association list, replacing an existing
binding — the model of Go's `m[key] = value` (later duplicate keys
win) with the map represented by its sorted listing. -/
def insertField (k : List Char) (v : GoVal) :
    List (List Char × GoVal) → List (List Char × GoVal)
  | [] => [(k, v)]
  | (k2, v2) :: t =>
    if keyLt k k2 then (k, v) :: (k2, v2) :: t
    else if k = k2 then (k, v) :: t
    else (k2, v2) :: insertField k v t

/-- Fold a list of parsed fields into the map model, in textual order. -/
def buildObj (ps : List (List Char × GoVal)) : List (List Char × GoVal) :=
  ps.foldl (fun acc kv => insertField kv.1 kv.2 acc) []

/-!
Modelled from the spec: the strict JSON parser consumed by
`JSONFromValue` (`encoding/json.Unmarshal` into `any`, an external
collaborator "treated as opaque": parse text into a generic value
tree, fail on malformed input).  `parseVal` parses one value,
`parseElems` the comma-separated tail of a non-empty array,
`parseFields` the comma-separated members of a non-empty object.  The
fuel argument only bounds recursion depth; `length input + 1` always
suffices (each nesting level consumes input). -/

mutual

def parseVal : Nat → List Char → Option (GoVal × List Char)
  | 0, _ => none
  | Nat.succ f, cs =>
    match cs with
    | [] => none
    | c :: r =>
      if c = 'n' then (stripLit ['u', 'l', 'l'] r).map (fun rest => (GoVal.null, rest))
      else if c = 't' then
        (stripLit ['r', 'u', 'e'] r).map (fun rest => (GoVal.boolean true, rest))
      else if c = 'f' then
        (stripLit ['a', 'l', 's', 'e'] r).map (fun rest => (GoVal.boolean false, rest))
      else if c = '"' then
        (parseStrF (r.length + 1) r).map (fun st => (GoVal.str st.1, st.2))
      else if c = '[' then
        match skipWS r with
        | [] => none
        | c2 :: r2 =>
            if c2 = ']' then some (GoVal.arr [], r2)
            else (parseElems f (c2 :: r2)).map (fun el => (GoVal.arr el.1, el.2))
      else if c = '\x7b' then
        match skipWS r with
        | [] => none
        | c2 :: r2 =>
            if c2 = '\x7d' then some (GoVal.obj [], r2)
            else
              (parseFields f (c2 :: r2)).map
                (fun fl => (GoVal.obj (buildObj fl.1), fl.2))
      else parseNum (c :: r)

def parseElems : Nat → List Char → Option (List GoVal × List Char)
  | 0, _ => none
  | Nat.succ f, cs =>
    match parseVal f cs with
    | none => none
    | some (v, rest) =>
      match skipWS rest with
      | [] => none
      | c2 :: r2 =>
        if c2 = ',' then
          match parseElems f (skipWS r2) with
          | none => none
          | some (vs, r3) => some (v :: vs, r3)
        else if c2 = ']' then some ([v], r2)
        else none

def parseFields : Nat → List Char → Option (List (List Char × GoVal) × List Char)
  | 0, _ => none
  | Nat.succ f, cs =>
    match cs with
    | [] => none
    | c :: r =>
      if c = '"' then
        match parseStrF (r.length + 1) r with
        | none => none
        | some (k, r1) =>
          match skipWS r1 with
          | [] => none
          | c2 :: r2 =>
            if c2 = ':' then
              match parseVal f (skipWS r2) with
              | none => none
              | some (v, r3) =>
                match skipWS r3 with
                | [] => none
                | c3 :: r4 =>
                  if c3 = ',' then
                    match parseFields f (skipWS r4) with
                    | none => none
                    | some (fs, r5) => some ((k, v) :: fs, r5)
                  else if c3 = '\x7d' then some ([(k, v)], r4)
                  else none
            else none
      else none

end

/-- Modelled from the spec: the whole of `json.Unmarshal(input, &x)`
for `any`: skip leading whitespace, parse exactly one value, allow
only trailing whitespace. -/
def parseJSONText (cs : List Char) : Option GoVal :=
  let cs1 := skipWS cs
  match parseVal (cs1.length + 1) cs1 with
  | none => none
  | some (v, rest) => if skipWS rest = [] then some v else none

/-- Lowercase hexadecimal digit, as Go's encoder uses (`"0123456789abcdef"`). -/
def hexDigChar (n : Nat) : Char := Char.ofNat (if n < 10 then 48 + n else 87 + n)

/-- Escaping of one character by Go's JSON encoder with its default
HTML escaping: `"` and `\\` and the controls get their JSON escapes
(named ones for `\n` `\r` `\t`, `\u00XX` otherwise), `<` `>` `&`
become `\u003c` `\u003e` `\u0026`, U+2028/U+2029 become `\u2028`
`\u2029`, everything else passes through verbatim. -/
def escapeChar (c : Char) : List Char :=
  if c = '"' then ['\\', '"']
  else if c = '\\' then ['\\', '\\']
  else if c = '\n' then ['\\', 'n']
  else if c = '\r' then ['\\', 'r']
  else if c = '\t' then ['\\', 't']
  else if c.toNat < 0x20 then
    ['\\', 'u', '0', '0', hexDigChar (c.toNat / 16), hexDigChar (c.toNat % 16)]
  else if c = '<' then ['\\', 'u', '0', '0', '3', 'c']
  else if c = '>' then ['\\', 'u', '0', '0', '3', 'e']
  else if c = '&' then ['\\', 'u', '0', '0', '2', '6']
  else if c.toNat = 0x2028 then ['\\', 'u', '2', '0', '2', '8']
  else if c.toNat = 0x2029 then ['\\', 'u', '2', '0', '2', '9']
  else [c]

/-- Escaped body of a string literal. -/
def escBody : List Char → List Char
  | [] => []
  | c :: s => escapeChar c ++ escBody s

def digitChar (d : Nat) : Char := Char.ofNat (48 + d)

/-- Decimal digits of `n`, most significant first (fueled; `n` itself
is always enough fuel). -/
def natDigitsF : Nat → Nat → List Char
  | 0, _ => []
  | Nat.succ f, n => if n = 0 then [] else natDigitsF f (n / 10) ++ [digitChar (n % 10)]

def natDigits (n : Nat) : List Char := natDigitsF n n

def emitInt (i : Int) : List Char :=
  (if i < 0 then ['-'] else []) ++ natDigits i.natAbs

/-- Exponent suffix of an emitted number (empty for exponent zero). -/
def expPart (e : Int) : List Char :=
  if e = 0 then [] else 'e' :: emitInt e

/-- Emission of the canonical number `m * 10 ^ e`.  The digit layout
(`15e-1` rather than `1.5`) differs from Go's shortest-float format,
which the spec leaves to the encoder ("exact byte layout depends on
the chosen encoder"); what matters is that it is valid JSON and
re-parses to the same value. -/
def emitNum (m e : Int) : List Char :=
  if m = 0 then ['0']
  else emitInt m ++ expPart e

/-!
Modelled from the spec: the canonical JSON encoder consumed by
`JSONFromValue` (`encoding/json.Marshal`, an external collaborator
"treated as opaque": serialize a generic value tree into canonical
text).  Objects are emitted with keys in sorted order (the `GoVal.obj`
association list is kept sorted, modelling Go's sorted emission of map
keys); strings are escaped per `escapeChar`. -/

mutual

def emitVal : GoVal → List Char
  | GoVal.null => ['n', 'u', 'l', 'l']
  | GoVal.boolean true => ['t', 'r', 'u', 'e']
  | GoVal.boolean false => ['f', 'a', 'l', 's', 'e']
  | GoVal.num m e => emitNum m e
  | GoVal.str s => '"' :: escBody s ++ ['"']
  | GoVal.arr [] => ['[', ']']
  | GoVal.arr (x :: xs) => '[' :: (emitVal x ++ emitTail xs) ++ [']']
  | GoVal.obj [] => ['\x7b', '\x7d']
  | GoVal.obj (f :: fs) => '\x7b' :: (emitField f ++ emitFTail fs) ++ ['\x7d']

def emitTail : List GoVal → List Char
  | [] => []
  | x :: xs => ',' :: emitVal x ++ emitTail xs

def emitField : List Char × GoVal → List Char
  | (k, v) => '"' :: escBody k ++ '"' :: ':' :: emitVal v

def emitFTail : List (List Char × GoVal) → List Char
  | [] => []
  | f :: fs => ',' :: emitField f ++ emitFTail fs

end

/-- The error channel of `JSONFromValue` (`err error` in Go). -/
inductive GoJSONError where
  | unmarshalError : GoJSONError
  | marshalError : GoJSONError
deriving DecidableEq

/-- Modelled from the spec: `json.Unmarshal(input, &x)` for `x : any`. -/
def goUnmarshal (input : Str) : Option GoVal :=
  parseJSONText input.data

/-- Modelled from the spec: `json.Marshal(x)`.  Its Go signature is
fallible, but on the `any` trees `Unmarshal` produces (no NaN or
infinite float64, no unsupported types) it always succeeds, so the
model never takes the error branch. -/
def goMarshal (x : GoVal) : Except GoJSONError Str :=
  Except.ok (String.mk (emitVal x))

/-- `func JSONFromValue(input string) (out JSON, err error)` from
`json.go`: unmarshal, then marshal, with the `goto end` structure — on
either failure `out` keeps its zero value `JSON{}` and the error is
returned alongside. -/
def JSONFromValue (input : Str) : JSON × Option GoJSONError :=
  match goUnmarshal input with
  | none => ({ str := "" }, some GoJSONError.unmarshalError)
  | some x =>
    match goMarshal x with
    | Except.error e => ({ str := "" }, some e)
    | Except.ok j => ({ str := j }, none)

/-! ### Basic character, digit and whitespace lemmas -/

theorem char_ne_of_toNat_ne {a b : Char} (h : a.toNat ≠ b.toNat) : a ≠ b :=
  fun he => h (he ▸ rfl)

theorem digitChar_toNat {d : Nat} (hd : d ≤ 9) : (digitChar d).toNat = 48 + d := by
  interval_cases d <;> rfl

theorem uint32_le_iff_toNat {a b : UInt32} : a ≤ b ↔ a.toNat ≤ b.toNat := by
  rw [UInt32.le_def, BitVec.le_def]
  exact Iff.rfl

theorem uint32_lt_iff_toNat {a b : UInt32} : a < b ↔ a.toNat < b.toNat := by
  rw [UInt32.lt_def, BitVec.lt_def]
  exact Iff.rfl

theorem isDigit_iff {c : Char} : isDigit c = true ↔ 48 ≤ c.toNat ∧ c.toNat ≤ 57 := by
  constructor
  · intro h
    simp only [isDigit, Bool.and_eq_true, decide_eq_true_eq] at h
    obtain ⟨h1, h2⟩ := h
    rw [Char.le_def, uint32_le_iff_toNat] at h1 h2
    exact ⟨h1, h2⟩
  · intro h
    obtain ⟨h1, h2⟩ := h
    simp only [isDigit, Bool.and_eq_true, decide_eq_true_eq]
    constructor
    · rw [Char.le_def, uint32_le_iff_toNat]
      exact h1
    · rw [Char.le_def, uint32_le_iff_toNat]
      exact h2

theorem isDigit_digitChar {d : Nat} (hd : d ≤ 9) : isDigit (digitChar d) = true := by
  interval_cases d <;> rfl

theorem hexVal_hexDigChar {d : Nat} (hd : d < 16) : hexVal (hexDigChar d) = some d := by
  interval_cases d <;> rfl

theorem isWS_eq_false {c : Char} (h32 : c.toNat ≠ 32) (h9 : c.toNat ≠ 9)
    (h10 : c.toNat ≠ 10) (h13 : c.toNat ≠ 13) : isWS c = false := by
  simp only [isWS, Bool.or_eq_false_iff, decide_eq_false_iff_not]
  refine ⟨⟨⟨?_, ?_⟩, ?_⟩, ?_⟩ <;>
    exact char_ne_of_toNat_ne (fun hh => by simp at hh; omega)

theorem skipWS_cons_notWS {c : Char} {r : List Char} (h : isWS c = false) :
    skipWS (c :: r) = c :: r := by
  simp [skipWS, h]

/-! ### Digit runs, decimal mantissas, canonicalization -/

/-- The continuation after a token must not begin with a digit for the
digit run to be maximal. -/
def headNotDigit : List Char → Prop
  | [] => True
  | c :: _ => isDigit c = false

theorem takeDigits_append {ds rest : List Char}
    (hds : ∀ c ∈ ds, isDigit c = true) (hrest : headNotDigit rest) :
    takeDigits (ds ++ rest) = (ds, rest) := by
  induction ds with
  | nil =>
      match rest with
      | [] => rfl
      | c :: r => simp [takeDigits, show isDigit c = false from hrest]
  | cons d ds ih =>
      have hd : isDigit d = true := hds d (by simp)
      have : takeDigits (ds ++ rest) = (ds, rest) :=
        ih (fun c hc => hds c (by simp [hc]))
      simp [takeDigits, hd, this]

theorem digitsToNat_append_one {ds : List Char} {c : Char} :
    digitsToNat (ds ++ [c]) = 10 * digitsToNat ds + (c.toNat - 48) := by
  simp [digitsToNat, List.foldl_append]

theorem natDigitsF_zero (f : Nat) : natDigitsF f 0 = [] := by
  cases f <;> simp [natDigitsF]

theorem natDigitsF_toNat {f n : Nat} (h : n ≤ f) :
    digitsToNat (natDigitsF f n) = n := by
  induction f generalizing n with
  | zero =>
      have : n = 0 := by omega
      subst this
      rfl
  | succ f ih =>
      by_cases hn : n = 0
      · subst hn
        rfl
      · simp only [natDigitsF, if_neg hn]
        rw [digitsToNat_append_one, ih (by omega)]
        rw [digitChar_toNat (by omega)]
        omega

theorem natDigitsF_all_digits {f n : Nat} :
    ∀ c ∈ natDigitsF f n, isDigit c = true := by
  induction f generalizing n with
  | zero => simp [natDigitsF]
  | succ f ih =>
      by_cases hn : n = 0
      · subst hn
        simp [natDigitsF]
      · simp only [natDigitsF, if_neg hn]
        intro c hc
        rcases List.mem_append.mp hc with h | h
        · exact ih c h
        · have : c = digitChar (n % 10) := by simpa using h
          subst this
          exact isDigit_digitChar (by omega)

theorem natDigitsF_head {f n : Nat} (hn : n ≠ 0) (hf : n ≤ f) :
    ∃ c t, natDigitsF f n = c :: t ∧ isDigit c = true ∧ c ≠ '0' := by
  induction f generalizing n with
  | zero => omega
  | succ f ih =>
      simp only [natDigitsF, if_neg hn]
      by_cases h10 : n / 10 = 0
      · rw [h10, natDigitsF_zero]
        refine ⟨digitChar (n % 10), [], rfl, isDigit_digitChar (by omega), ?_⟩
        apply char_ne_of_toNat_ne
        rw [digitChar_toNat (by omega)]
        have : n % 10 ≠ 0 := by omega
        simp
        omega
      · obtain ⟨c, t, heq, hdig, hne⟩ := ih h10 (by omega)
        exact ⟨c, t ++ [digitChar (n % 10)], by rw [heq]; rfl, hdig, hne⟩

theorem natDigits_toNat (n : Nat) : digitsToNat (natDigits n) = n :=
  natDigitsF_toNat (Nat.le_refl n)

theorem natDigits_all_digits {n : Nat} : ∀ c ∈ natDigits n, isDigit c = true :=
  natDigitsF_all_digits

theorem natDigits_head {n : Nat} (hn : n ≠ 0) :
    ∃ c t, natDigits n = c :: t ∧ isDigit c = true ∧ c ≠ '0' :=
  natDigitsF_head hn (Nat.le_refl n)

theorem canonNF_self {f n : Nat} {e : Int} (hn : n ≠ 0) (hmod : n % 10 ≠ 0)
    (hf : 1 ≤ f) : canonNF f n e = (n, e) := by
  match f with
  | 0 => omega
  | Nat.succ f => simp [canonNF, hn, hmod]

theorem canonN_self {n : Nat} {e : Int} (hn : n ≠ 0) (hmod : n % 10 ≠ 0) :
    canonN n e = (n, e) :=
  canonNF_self hn hmod (by omega)

theorem canonNF_canon {f n : Nat} {e : Int} (hf : n ≤ f) :
    ((canonNF f n e).1 = 0 → (canonNF f n e).2 = 0)
    ∧ ((canonNF f n e).1 ≠ 0 → (canonNF f n e).1 % 10 ≠ 0) := by
  induction f generalizing n e with
  | zero => simp [canonNF]
  | succ f ih =>
      by_cases hn : n = 0
      · simp [canonNF, hn]
      · by_cases hm : n % 10 = 0
        · simp only [canonNF, if_neg hn, if_pos hm]
          exact ih (by omega)
        · simp [canonNF, hn, hm]

theorem canonN_canon {n : Nat} {e : Int} :
    ((canonN n e).1 = 0 → (canonN n e).2 = 0)
    ∧ ((canonN n e).1 ≠ 0 → (canonN n e).1 % 10 ≠ 0) :=
  canonNF_canon (Nat.le_refl n)

theorem stripLit_self (p cs : List Char) : stripLit p (p ++ cs) = some cs := by
  induction p with
  | nil => rfl
  | cons c p ih => simp [stripLit, ih]

theorem escapeChar_length_pos (c : Char) : 1 ≤ (escapeChar c).length := by
  unfold escapeChar
  split_ifs <;> simp

theorem escBody_length (s : List Char) : s.length ≤ (escBody s).length := by
  induction s with
  | nil => simp [escBody]
  | cons c s ih =>
      have := escapeChar_length_pos c
      simp only [escBody, List.length_append, List.length_cons]
      omega

/-! ### Round trip for numbers -/

/-- What may legally follow an emitted JSON value: end of input, or a
separator (comma, closing bracket, closing brace). -/
def sepOk : List Char → Prop
  | [] => True
  | c :: _ => c = ',' ∨ c = ']' ∨ c = '\x7d'

theorem headNotDigit_of_sepOk {rest : List Char} (h : sepOk rest) :
    headNotDigit rest := by
  match rest with
  | [] => trivial
  | c :: r =>
      rcases h with h | h | h <;> subst h <;> rfl

theorem parseFrac_sep {m : Nat} {rest : List Char} (h : sepOk rest) :
    parseFrac m rest = some (m, 0, rest) := by
  match rest with
  | [] => rfl
  | c :: r =>
      rcases h with h | h | h <;> subst h <;> rfl

theorem parseExp_sep {rest : List Char} (h : sepOk rest) :
    parseExp rest = some (0, rest) := by
  match rest with
  | [] => rfl
  | c :: r =>
      rcases h with h | h | h <;> subst h <;> rfl

theorem natDigits_ne_nil {n : Nat} (hn : n ≠ 0) : natDigits n ≠ [] := by
  obtain ⟨c, t, heq, -, -⟩ := natDigits_head hn
  rw [heq]
  simp

theorem takeDigits_natDigits {n : Nat} {rest : List Char}
    (hrest : headNotDigit rest) :
    takeDigits (natDigits n ++ rest) = (natDigits n, rest) :=
  takeDigits_append (fun c hc => natDigits_all_digits c hc) hrest

theorem parseExp_emit {e : Int} {rest : List Char} (hsep : sepOk rest) :
    parseExp (expPart e ++ rest) = some (e, rest) := by
  by_cases he : e = 0
  · subst he
    simpa [expPart] using parseExp_sep hsep
  · simp only [expPart, if_neg he, List.cons_append]
    have hne : e.natAbs ≠ 0 := by
      simp only [ne_eq, Int.natAbs_eq_zero]
      exact he
    obtain ⟨c, t, heq, hdig, -⟩ := natDigits_head hne
    rw [isDigit_iff] at hdig
    have h1 : (c = '-') = False := by
      simp only [eq_iff_iff, iff_false]
      exact char_ne_of_toNat_ne (by simp; omega)
    have h2 : (c = '+') = False := by
      simp only [eq_iff_iff, iff_false]
      exact char_ne_of_toNat_ne (by simp; omega)
    by_cases hneg : e < 0
    · have hemit : emitInt e = '-' :: natDigits e.natAbs := by
        simp [emitInt, hneg]
      rw [hemit]
      simp only [parseExp, List.cons_append, List.append_assoc]
      rw [takeDigits_natDigits (headNotDigit_of_sepOk hsep)]
      rw [heq]
      simp only [reduceIte, ← heq, natDigits_toNat]
      have hval : -((e.natAbs : Int)) = e := by omega
      rw [hval]
      simp
    · have hemit : emitInt e = natDigits e.natAbs := by
        simp [emitInt, hneg]
      rw [hemit, heq]
      simp only [parseExp, List.cons_append, reduceIte, h1, h2, if_false]
      rw [show c :: (t ++ rest) = (c :: t) ++ rest from rfl, ← heq]
      rw [takeDigits_natDigits (headNotDigit_of_sepOk hsep)]
      rw [heq]
      simp only [← heq, natDigits_toNat]
      have hval : ((e.natAbs : Int)) = e := by omega
      rw [hval]
      simp

theorem headNotDigit_expPart {e : Int} {rest : List Char} (hsep : sepOk rest) :
    headNotDigit (expPart e ++ rest) := by
  by_cases he : e = 0
  · subst he
    simpa [expPart] using headNotDigit_of_sepOk hsep
  · simp only [expPart, if_neg he, List.cons_append]
    rfl

theorem parseFrac_expPart {m : Nat} {e : Int} {rest : List Char}
    (hsep : sepOk rest) :
    parseFrac m (expPart e ++ rest) = some (m, 0, expPart e ++ rest) := by
  by_cases he : e = 0
  · subst he
    simpa [expPart] using parseFrac_sep hsep
  · simp only [expPart, if_neg he, List.cons_append]
    rfl

theorem parseNumBody_emit {neg : Bool} {n : Nat} (hn : n ≠ 0)
    (hmod : n % 10 ≠ 0) {e : Int} {rest : List Char} (hsep : sepOk rest) :
    parseNumBody neg (natDigits n ++ (expPart e ++ rest))
      = some (GoVal.num (if neg then -(n : Int) else (n : Int)) e, rest) := by
  obtain ⟨c, t, heq, hdig, hc0⟩ := natDigits_head hn
  rw [heq, List.cons_append]
  simp only [parseNumBody]
  rw [if_neg hc0, if_pos hdig]
  rw [show c :: (t ++ (expPart e ++ rest)) = (c :: t) ++ (expPart e ++ rest) from rfl]
  rw [← heq, takeDigits_natDigits (headNotDigit_expPart hsep)]
  simp only [natDigits_toNat]
  rw [parseFrac_expPart hsep]
  simp only []
  rw [parseExp_emit hsep]
  simp only [Int.zero_add]
  rw [show mkNum neg n e
      = GoVal.num (if neg then -(n : Int) else (n : Int)) e from by
    simp [mkNum, canonN_self hn hmod]]

theorem parseNum_emit {m e : Int} (hm0 : m = 0 → e = 0)
    (hmod : m ≠ 0 → m.natAbs % 10 ≠ 0) {rest : List Char} (hsep : sepOk rest) :
    parseNum (emitNum m e ++ rest) = some (GoVal.num m e, rest) := by
  by_cases hm : m = 0
  · subst hm
    rw [hm0 rfl]
    simp only [emitNum, reduceIte, List.cons_append, List.nil_append]
    match rest with
    | [] => rfl
    | c :: r =>
        have hnd : isDigit c = false := headNotDigit_of_sepOk hsep
        simp only [parseNum, reduceIte, parseNumBody, hnd]
        rw [parseFrac_sep hsep]
        simp only []
        rw [parseExp_sep hsep]
        rfl
  · have hna : m.natAbs ≠ 0 := by omega
    simp only [emitNum, if_neg hm]
    by_cases hneg : m < 0
    · have hemit : emitInt m = '-' :: natDigits m.natAbs := by
        simp [emitInt, hneg]
      rw [hemit]
      simp only [parseNum, List.cons_append, List.append_assoc, reduceIte]
      rw [parseNumBody_emit hna (hmod hm) hsep]
      have hval : -((m.natAbs : Int)) = m := by omega
      simp only [reduceIte]
      rw [hval]
    · have hemit : emitInt m = natDigits m.natAbs := by
        simp [emitInt, hneg]
      rw [hemit]
      obtain ⟨c, t, heq, hdig, hc0⟩ := natDigits_head hna
      rw [isDigit_iff] at hdig
      rw [heq]
      rw [show ((c :: t) ++ expPart e) ++ rest = c :: (t ++ (expPart e ++ rest)) from by
        simp]
      simp only [parseNum]
      rw [if_neg (show ¬ c = '-' from char_ne_of_toNat_ne (by simp; omega))]
      rw [show c :: (t ++ (expPart e ++ rest)) = (c :: t) ++ (expPart e ++ rest) from rfl]
      rw [← heq, parseNumBody_emit hna (hmod hm) hsep]
      have hval : ((m.natAbs : Int)) = m := by omega
      rw [hval]
      simp

/-! ### Round trip for strings -/

theorem parseStrF_quote {f : Nat} {rest : List Char} :
    parseStrF (Nat.succ f) ('"' :: rest) = some ([], rest) := by
  simp [parseStrF]

theorem parseStrF_plain {f : Nat} {c : Char} (h1 : c ≠ '"') (h2 : c ≠ '\\')
    (h3 : ¬ c.toNat < 0x20) {tail : List Char} :
    parseStrF (Nat.succ f) (c :: tail)
      = (parseStrF f tail).map (fun p => (c :: p.1, p.2)) := by
  simp only [parseStrF]
  rw [if_neg h1, if_neg h2, if_neg h3]

theorem parseStrF_simpleEscape {f : Nat} {e ec : Char} (he : escChar e = some ec)
    (hne : e ≠ 'u') {tail : List Char} :
    parseStrF (Nat.succ f) ('\\' :: e :: tail)
      = (parseStrF f tail).map (fun p => (ec :: p.1, p.2)) := by
  simp only [parseStrF, reduceIte, if_true]
  rw [if_neg hne, he]
  rw [if_neg (by decide : ¬ ('\\' : Char) = '"')]

theorem parseStrF_hexEscape {f : Nat} {n : Nat} {h1 h2 h3 h4 : Char}
    (hhex : hex4 h1 h2 h3 h4 = some n) (hrange : n < 0xD800 ∨ 0xE000 ≤ n)
    {tail : List Char} :
    parseStrF (Nat.succ f) ('\\' :: 'u' :: h1 :: h2 :: h3 :: h4 :: tail)
      = (parseStrF f tail).map (fun p => (Char.ofNat n :: p.1, p.2)) := by
  simp only [parseStrF, reduceIte, if_true]
  rw [hhex]
  rw [if_neg (by decide : ¬ ('\\' : Char) = '"')]
  have hcond : (decide (n < 0xD800) || decide (0xE000 ≤ n)) = true := by
    rcases hrange with h | h <;> simp [h]
  simp only [hcond]
  rfl

theorem hex4_control {t : Nat} (ht : t < 32) :
    hex4 '0' '0' (hexDigChar (t / 16)) (hexDigChar (t % 16)) = some t := by
  have hv1 : hexVal (hexDigChar (t / 16)) = some (t / 16) :=
    hexVal_hexDigChar (by omega)
  have hv2 : hexVal (hexDigChar (t % 16)) = some (t % 16) :=
    hexVal_hexDigChar (by omega)
  simp only [hex4, show hexVal '0' = some 0 from rfl, hv1, hv2]
  congr 1
  omega

theorem char_ofNat_toNat (c : Char) : Char.ofNat c.toNat = c :=
  Char.ofNat_toNat c

theorem escBody_append (s1 s2 : List Char) :
    escBody (s1 ++ s2) = escBody s1 ++ escBody s2 := by
  induction s1 with
  | nil => rfl
  | cons c s ih => simp [escBody, ih]

theorem parseStrF_emit (s : List Char) :
    ∀ f rest, s.length + 1 ≤ f →
      parseStrF f (escBody s ++ '"' :: rest) = some (s, rest) := by
  induction s with
  | nil =>
      intro f rest hf
      match f, hf with
      | Nat.succ f, _ => exact parseStrF_quote
  | cons c s ih =>
      intro f rest hf
      match f, hf with
      | Nat.succ f, hf =>
        have ihf : parseStrF f (escBody s ++ '"' :: rest) = some (s, rest) :=
          ih f rest (by simp at hf; omega)
        show parseStrF (Nat.succ f) (escBody (c :: s) ++ '"' :: rest) = _
        simp only [escBody, List.append_assoc]
        simp only [escapeChar]
        split_ifs with h1 h2 h3 h4 h5 h6 h7 h8 h9 h10 h11
        · subst h1
          rw [show ((['\\', '"'] : List Char) ++ (escBody s ++ '"' :: rest))
              = '\\' :: '"' :: (escBody s ++ '"' :: rest) from rfl]
          rw [parseStrF_simpleEscape (show escChar '"' = some '"' from rfl)
            (by decide), ihf]
          rfl
        · subst h2
          rw [show ((['\\', '\\'] : List Char) ++ (escBody s ++ '"' :: rest))
              = '\\' :: '\\' :: (escBody s ++ '"' :: rest) from rfl]
          rw [parseStrF_simpleEscape (show escChar '\\' = some '\\' from rfl)
            (by decide), ihf]
          rfl
        · subst h3
          rw [show ((['\\', 'n'] : List Char) ++ (escBody s ++ '"' :: rest))
              = '\\' :: 'n' :: (escBody s ++ '"' :: rest) from rfl]
          rw [parseStrF_simpleEscape (show escChar 'n' = some '\n' from rfl)
            (by decide), ihf]
          rfl
        · subst h4
          rw [show ((['\\', 'r'] : List Char) ++ (escBody s ++ '"' :: rest))
              = '\\' :: 'r' :: (escBody s ++ '"' :: rest) from rfl]
          rw [parseStrF_simpleEscape (show escChar 'r' = some '\r' from rfl)
            (by decide), ihf]
          rfl
        · subst h5
          rw [show ((['\\', 't'] : List Char) ++ (escBody s ++ '"' :: rest))
              = '\\' :: 't' :: (escBody s ++ '"' :: rest) from rfl]
          rw [parseStrF_simpleEscape (show escChar 't' = some '\t' from rfl)
            (by decide), ihf]
          rfl
        · -- control character: hex escape
          rw [show ((['\\', 'u', '0', '0', hexDigChar (c.toNat / 16),
                hexDigChar (c.toNat % 16)] : List Char) ++ (escBody s ++ '"' :: rest))
              = '\\' :: 'u' :: '0' :: '0' :: hexDigChar (c.toNat / 16)
                :: hexDigChar (c.toNat % 16) :: (escBody s ++ '"' :: rest) from rfl]
          rw [parseStrF_hexEscape (hex4_control h6) (by omega), ihf]
          rw [char_ofNat_toNat]
          rfl
        · subst h7
          rw [show ((['\\', 'u', '0', '0', '3', 'c'] : List Char)
                ++ (escBody s ++ '"' :: rest))
              = '\\' :: 'u' :: '0' :: '0' :: '3' :: 'c'
                :: (escBody s ++ '"' :: rest) from rfl]
          rw [parseStrF_hexEscape (show hex4 '0' '0' '3' 'c' = some 60 from rfl)
            (by omega), ihf]
          rfl
        · subst h8
          rw [show ((['\\', 'u', '0', '0', '3', 'e'] : List Char)
                ++ (escBody s ++ '"' :: rest))
              = '\\' :: 'u' :: '0' :: '0' :: '3' :: 'e'
                :: (escBody s ++ '"' :: rest) from rfl]
          rw [parseStrF_hexEscape (show hex4 '0' '0' '3' 'e' = some 62 from rfl)
            (by omega), ihf]
          rfl
        · subst h9
          rw [show ((['\\', 'u', '0', '0', '2', '6'] : List Char)
                ++ (escBody s ++ '"' :: rest))
              = '\\' :: 'u' :: '0' :: '0' :: '2' :: '6'
                :: (escBody s ++ '"' :: rest) from rfl]
          rw [parseStrF_hexEscape (show hex4 '0' '0' '2' '6' = some 38 from rfl)
            (by omega), ihf]
          rfl
        · rw [show ((['\\', 'u', '2', '0', '2', '8'] : List Char)
                ++ (escBody s ++ '"' :: rest))
              = '\\' :: 'u' :: '2' :: '0' :: '2' :: '8'
                :: (escBody s ++ '"' :: rest) from rfl]
          rw [parseStrF_hexEscape (show hex4 '2' '0' '2' '8' = some 0x2028 from rfl)
            (by omega), ihf]
          have : Char.ofNat 0x2028 = c := by
            rw [← h10, char_ofNat_toNat]
          rw [this]
          rfl
        · rw [show ((['\\', 'u', '2', '0', '2', '9'] : List Char)
                ++ (escBody s ++ '"' :: rest))
              = '\\' :: 'u' :: '2' :: '0' :: '2' :: '9'
                :: (escBody s ++ '"' :: rest) from rfl]
          rw [parseStrF_hexEscape (show hex4 '2' '0' '2' '9' = some 0x2029 from rfl)
            (by omega), ihf]
          have : Char.ofNat 0x2029 = c := by
            rw [← h11, char_ofNat_toNat]
          rw [this]
          rfl
        · -- plain character
          rw [show (([c] : List Char) ++ (escBody s ++ '"' :: rest))
              = c :: (escBody s ++ '"' :: rest) from rfl]
          rw [parseStrF_plain h1 h2 (by omega), ihf]
          rfl

/-! ### Key order, sorted association lists, canonical trees -/

theorem char_eq_of_toNat_eq {a b : Char} (h : a.toNat = b.toNat) : a = b :=
  Char.ext (UInt32.ext h)

theorem keyLt_irrefl (l : List Char) : keyLt l l = false := by
  induction l with
  | nil => rfl
  | cons c t ih => simp [keyLt, ih]

theorem keyLt_asymm : ∀ {a b : List Char}, keyLt a b = true → keyLt b a = false
  | [], [], h => by simp [keyLt] at h
  | [], _ :: _, _ => rfl
  | _ :: _, [], h => by simp [keyLt] at h
  | x :: xs, y :: ys, h => by
      simp only [keyLt] at h ⊢
      split_ifs at h ⊢ <;>
        first
        | rfl
        | omega
        | exact keyLt_asymm h
        | simp at h

theorem keyLt_trans : ∀ {a b c : List Char},
    keyLt a b = true → keyLt b c = true → keyLt a c = true
  | [], _, c :: cs, _, _ => rfl
  | [], b, [], hab, hbc => by
      match b with
      | [] => simp [keyLt] at hab
      | _ :: _ => simp [keyLt] at hbc
  | _ :: _, [], _, hab, _ => by simp [keyLt] at hab
  | x :: xs, y :: ys, [], _, hbc => by simp [keyLt] at hbc
  | x :: xs, y :: ys, z :: zs, hab, hbc => by
      simp only [keyLt] at hab hbc ⊢
      split_ifs at hab hbc ⊢ <;>
        first
        | rfl
        | omega
        | exact keyLt_trans hab hbc
        | simp at hab
        | simp at hbc

theorem keyLt_conn : ∀ {a b : List Char},
    keyLt a b = false → keyLt b a = false → a = b
  | [], [], _, _ => rfl
  | [], _ :: _, h1, _ => by simp [keyLt] at h1
  | _ :: _, [], _, h2 => by simp [keyLt] at h2
  | x :: xs, y :: ys, h1, h2 => by
      simp only [keyLt] at h1 h2
      split_ifs at h1 h2 <;>
        first
        | omega
        | simp at h1
        | simp at h2
        | (have hx : x = y := char_eq_of_toNat_eq (by omega)
           have ht : xs = ys := keyLt_conn h1 h2
           rw [hx, ht])

/-- Object fields sorted strictly by key. -/
def fieldsSorted (fs : List (List Char × GoVal)) : Prop :=
  List.Pairwise (fun a b => keyLt a.1 b.1 = true) fs

theorem insertField_mem {p : List Char × GoVal} {k : List Char} {v : GoVal} :
    ∀ {l : List (List Char × GoVal)},
      p ∈ insertField k v l → p = (k, v) ∨ p ∈ l := by
  intro l
  induction l with
  | nil =>
      intro h
      simp [insertField] at h
      exact Or.inl h
  | cons a t ih =>
      intro h
      simp only [insertField] at h
      split_ifs at h with h1 h2
      · rcases List.mem_cons.mp h with h | h
        · exact Or.inl h
        · exact Or.inr h
      · rcases List.mem_cons.mp h with h | h
        · exact Or.inl h
        · exact Or.inr (List.mem_cons_of_mem a h)
      · rcases List.mem_cons.mp h with h | h
        · exact Or.inr (h ▸ List.mem_cons_self a t)
        · rcases ih h with h | h
          · exact Or.inl h
          · exact Or.inr (List.mem_cons_of_mem a h)

theorem insertField_sorted {k : List Char} {v : GoVal} :
    ∀ {l : List (List Char × GoVal)},
      fieldsSorted l → fieldsSorted (insertField k v l) := by
  intro l
  induction l with
  | nil =>
      intro _
      simp [insertField, fieldsSorted]
  | cons a t ih =>
      intro hs
      rw [fieldsSorted, List.pairwise_cons] at hs
      obtain ⟨ha, ht⟩ := hs
      simp only [insertField]
      split_ifs with h1 h2
      · rw [fieldsSorted, List.pairwise_cons]
        refine ⟨?_, List.pairwise_cons.mpr ⟨ha, ht⟩⟩
        intro b hb
        rcases List.mem_cons.mp hb with hb | hb
        · rw [hb]
          exact h1
        · exact keyLt_trans h1 (ha b hb)
      · rw [fieldsSorted, List.pairwise_cons]
        exact ⟨fun b hb => h2 ▸ ha b hb, ht⟩
      · rw [fieldsSorted, List.pairwise_cons]
        constructor
        · intro b hb
          rcases insertField_mem hb with hb | hb
          · rw [hb]
            by_cases hlt : keyLt a.1 k = true
            · exact hlt
            · exact absurd
                (keyLt_conn (Bool.eq_false_iff.mpr h1) (Bool.eq_false_iff.mpr hlt))
                h2
          · exact ha b hb
        · exact ih ht

theorem buildObj_aux_sorted (ps : List (List Char × GoVal)) :
    ∀ acc, fieldsSorted acc →
      fieldsSorted (ps.foldl (fun acc kv => insertField kv.1 kv.2 acc) acc) := by
  induction ps with
  | nil =>
      intro acc h
      simpa using h
  | cons p ps ih =>
      intro acc h
      simp only [List.foldl_cons]
      exact ih _ (insertField_sorted h)

theorem buildObj_sorted (ps : List (List Char × GoVal)) :
    fieldsSorted (buildObj ps) :=
  buildObj_aux_sorted ps [] (by simp [fieldsSorted])

theorem buildObj_aux_mem {p : List Char × GoVal} :
    ∀ {ps acc : List (List Char × GoVal)},
      p ∈ ps.foldl (fun acc kv => insertField kv.1 kv.2 acc) acc →
        p ∈ acc ∨ p ∈ ps := by
  intro ps
  induction ps with
  | nil =>
      intro acc h
      exact Or.inl (by simpa using h)
  | cons q ps ih =>
      intro acc h
      simp only [List.foldl_cons] at h
      rcases ih h with h | h
      · rcases insertField_mem h with h | h
        · right
          rw [h]
          exact List.mem_cons_self q ps
        · exact Or.inl h
      · right
        exact List.mem_cons_of_mem q h

theorem buildObj_mem {p : List Char × GoVal} {ps : List (List Char × GoVal)}
    (h : p ∈ buildObj ps) : p ∈ ps := by
  rcases buildObj_aux_mem h with h | h
  · simp at h
  · exact h

theorem insertField_append {k : List Char} {v : GoVal} :
    ∀ {acc : List (List Char × GoVal)},
      (∀ p ∈ acc, keyLt p.1 k = true) →
        insertField k v acc = acc ++ [(k, v)] := by
  intro acc
  induction acc with
  | nil =>
      intro _
      rfl
  | cons a t ih =>
      intro h
      have hak : keyLt a.1 k = true := h a (List.mem_cons_self a t)
      simp only [insertField]
      rw [if_neg (by simp [keyLt_asymm hak]), if_neg ?hne]
      case hne =>
        intro hkeq
        rw [hkeq] at hak
        rw [keyLt_irrefl] at hak
        simp at hak
      rw [ih (fun p hp => h p (List.mem_cons_of_mem a hp))]
      rfl

theorem foldl_insert_sorted :
    ∀ {fs acc : List (List Char × GoVal)},
      fieldsSorted (acc ++ fs) →
        fs.foldl (fun acc kv => insertField kv.1 kv.2 acc) acc = acc ++ fs := by
  intro fs
  induction fs with
  | nil =>
      intro acc _
      simp
  | cons f fs ih =>
      intro acc h
      simp only [List.foldl_cons]
      have hlt : ∀ p ∈ acc, keyLt p.1 f.1 = true := by
        intro p hp
        rw [fieldsSorted, List.pairwise_append] at h
        exact h.2.2 p hp f (List.mem_cons_self f fs)
      rw [insertField_append hlt]
      rw [ih (by simpa using h)]
      simp

theorem buildObj_id {fs : List (List Char × GoVal)} (h : fieldsSorted fs) :
    buildObj fs = fs := by
  have := @foldl_insert_sorted fs [] (by simpa using h)
  simpa [buildObj] using this

/-!
Canonical trees: numbers in canonical mantissa/exponent form,
object fields key-sorted with canonical values — exactly the shape
`parseJSONText` produces (since the Go map collapses duplicate keys
and float64 collapses number spellings). -/

mutual

def isCanon : GoVal → Prop
  | GoVal.null => True
  | GoVal.boolean _ => True
  | GoVal.num m e => (m = 0 → e = 0) ∧ (m ≠ 0 → m.natAbs % 10 ≠ 0)
  | GoVal.str _ => True
  | GoVal.arr xs => isCanonList xs
  | GoVal.obj fs => fieldsSorted fs ∧ isCanonFields fs

def isCanonList : List GoVal → Prop
  | [] => True
  | x :: xs => isCanon x ∧ isCanonList xs

def isCanonFields : List (List Char × GoVal) → Prop
  | [] => True
  | f :: fs => isCanon f.2 ∧ isCanonFields fs

end

theorem isCanonFields_iff :
    ∀ {fs : List (List Char × GoVal)},
      isCanonFields fs ↔ ∀ p ∈ fs, isCanon p.2 := by
  intro fs
  induction fs with
  | nil => simp [isCanonFields]
  | cons f fs ih =>
      rw [isCanonFields, ih]
      constructor
      · intro ⟨h1, h2⟩ p hp
        rcases List.mem_cons.mp hp with hp | hp
        · rw [hp]
          exact h1
        · exact h2 p hp
      · intro h
        exact ⟨h f (List.mem_cons_self f fs),
          fun p hp => h p (List.mem_cons_of_mem f hp)⟩

theorem isCanonList_iff :
    ∀ {xs : List GoVal}, isCanonList xs ↔ ∀ x ∈ xs, isCanon x := by
  intro xs
  induction xs with
  | nil => simp [isCanonList]
  | cons x xs ih =>
      rw [isCanonList, ih]
      constructor
      · intro ⟨h1, h2⟩ y hy
        rcases List.mem_cons.mp hy with hy | hy
        · rw [hy]
          exact h1
        · exact h2 y hy
      · intro h
        exact ⟨h x (List.mem_cons_self x xs),
          fun y hy => h y (List.mem_cons_of_mem x hy)⟩

theorem mkNum_canon (neg : Bool) (n : Nat) (e : Int) : isCanon (mkNum neg n e) := by
  have h := @canonN_canon n e
  simp only [mkNum, isCanon]
  constructor
  · intro hm
    apply h.1
    rcases Bool.eq_false_or_eq_true neg with hb | hb <;> rw [hb] at hm <;> simp at hm <;> omega
  · intro hm
    have h1 : (canonN n e).1 ≠ 0 := by
      rcases Bool.eq_false_or_eq_true neg with hb | hb <;> rw [hb] at hm <;> simp at hm <;> omega
    have := h.2 h1
    rcases Bool.eq_false_or_eq_true neg with hb | hb <;> rw [hb] <;> simpa using this

/-! ### Fuel weights for the emitted text -/

mutual

def wV : GoVal → Nat
  | GoVal.arr [] => 1
  | GoVal.arr (x :: xs) => 1 + wE (x :: xs)
  | GoVal.obj [] => 1
  | GoVal.obj (f :: fs) => 1 + wF (f :: fs)
  | _ => 1

def wE : List GoVal → Nat
  | [] => 0
  | x :: xs => 1 + wV x + wE xs

def wF : List (List Char × GoVal) → Nat
  | [] => 0
  | f :: fs => 1 + wV f.2 + wF fs

end

/-! ### Heads of emitted values and separator facts -/

theorem sepOk_emitTail {xs : List GoVal} {rest : List Char} :
    sepOk (emitTail xs ++ ']' :: rest) := by
  match xs with
  | [] => exact Or.inr (Or.inl rfl)
  | x :: xs =>
      show sepOk ((',' :: (emitVal x ++ emitTail xs)) ++ ']' :: rest)
      exact Or.inl rfl

theorem sepOk_emitFTail {fs : List (List Char × GoVal)} {rest : List Char} :
    sepOk (emitFTail fs ++ '\x7d' :: rest) := by
  match fs with
  | [] => exact Or.inr (Or.inr rfl)
  | f :: fs =>
      show sepOk ((',' :: (emitField f ++ emitFTail fs)) ++ '\x7d' :: rest)
      exact Or.inl rfl

theorem emitVal_head (v : GoVal) :
    ∃ c t, emitVal v = c :: t ∧ isWS c = false ∧ c ≠ ']' ∧ c ≠ '\x7d' := by
  match v with
  | GoVal.null => exact ⟨'n', _, rfl, by decide, by decide, by decide⟩
  | GoVal.boolean true => exact ⟨'t', _, rfl, by decide, by decide, by decide⟩
  | GoVal.boolean false => exact ⟨'f', _, rfl, by decide, by decide, by decide⟩
  | GoVal.str s =>
      exact ⟨'"', escBody s ++ ['"'], rfl, by decide, by decide, by decide⟩
  | GoVal.arr [] => exact ⟨'[', _, rfl, by decide, by decide, by decide⟩
  | GoVal.arr (x :: xs) =>
      exact ⟨'[', (emitVal x ++ emitTail xs) ++ [']'], rfl, by decide, by decide,
        by decide⟩
  | GoVal.obj [] => exact ⟨'\x7b', _, rfl, by decide, by decide, by decide⟩
  | GoVal.obj (f :: fs) =>
      exact ⟨'\x7b', (emitField f ++ emitFTail fs) ++ ['\x7d'], rfl, by decide,
        by decide, by decide⟩
  | GoVal.num m e =>
      show ∃ c t, emitNum m e = c :: t ∧ _
      by_cases hm : m = 0
      · subst hm
        exact ⟨'0', [], by simp [emitNum], by decide, by decide, by decide⟩
      · simp only [emitNum, if_neg hm]
        by_cases hneg : m < 0
        · refine ⟨'-', natDigits m.natAbs ++ expPart e, ?_, by decide, by decide,
            by decide⟩
          simp [emitInt, hneg]
        · have hna : m.natAbs ≠ 0 := by omega
          obtain ⟨c, t, heq, hdig, -⟩ := natDigits_head hna
          rw [isDigit_iff] at hdig
          refine ⟨c, t ++ expPart e, ?_, ?_, ?_, ?_⟩
          · simp [emitInt, hneg, heq]
          · exact isWS_eq_false (by omega) (by omega) (by omega) (by omega)
          · exact char_ne_of_toNat_ne (by simp; omega)
          · exact char_ne_of_toNat_ne (by simp; omega)

theorem emitNum_head (m e : Int) :
    ∃ c t, emitNum m e = c :: t
      ∧ (c.toNat = 45 ∨ (48 ≤ c.toNat ∧ c.toNat ≤ 57)) := by
  by_cases hm : m = 0
  · subst hm
    exact ⟨'0', [], by simp [emitNum], by simp⟩
  · simp only [emitNum, if_neg hm]
    by_cases hneg : m < 0
    · refine ⟨'-', natDigits m.natAbs ++ expPart e, ?_, by simp⟩
      simp [emitInt, hneg]
    · have hna : m.natAbs ≠ 0 := by omega
      obtain ⟨c, t, heq, hdig, -⟩ := natDigits_head hna
      rw [isDigit_iff] at hdig
      refine ⟨c, t ++ expPart e, ?_, Or.inr hdig⟩
      simp [emitInt, hneg, heq]

theorem parseVal_step_num {f : Nat} {c : Char} {tail : List Char}
    (hc : c.toNat = 45 ∨ (48 ≤ c.toNat ∧ c.toNat ≤ 57)) :
    parseVal (Nat.succ f) (c :: tail) = parseNum (c :: tail) := by
  simp only [parseVal]
  rw [if_neg (char_ne_of_toNat_ne (by simp; omega))]
  rw [if_neg (char_ne_of_toNat_ne (by simp; omega))]
  rw [if_neg (char_ne_of_toNat_ne (by simp; omega))]
  rw [if_neg (char_ne_of_toNat_ne (by simp; omega))]
  rw [if_neg (char_ne_of_toNat_ne (by simp; omega))]
  rw [if_neg (char_ne_of_toNat_ne (by simp; omega))]

theorem parseVal_step_quote {f : Nat} {tail : List Char} :
    parseVal (Nat.succ f) ('"' :: tail)
      = (parseStrF (tail.length + 1) tail).map
          (fun st => (GoVal.str st.1, st.2)) := by
  simp only [parseVal]
  rw [if_neg (by decide), if_neg (by decide), if_neg (by decide),
    if_pos trivial]

theorem parseVal_step_lbracket {f : Nat} {tail : List Char} :
    parseVal (Nat.succ f) ('[' :: tail)
      = (match skipWS tail with
          | [] => none
          | c2 :: r2 =>
              if c2 = ']' then some (GoVal.arr [], r2)
              else (parseElems f (c2 :: r2)).map
                (fun el => (GoVal.arr el.1, el.2))) := by
  simp only [parseVal]
  rw [if_neg (by decide), if_neg (by decide), if_neg (by decide),
    if_neg (by decide), if_pos trivial]

theorem parseVal_step_lbrace {f : Nat} {tail : List Char} :
    parseVal (Nat.succ f) ('\x7b' :: tail)
      = (match skipWS tail with
          | [] => none
          | c2 :: r2 =>
              if c2 = '\x7d' then some (GoVal.obj [], r2)
              else (parseFields f (c2 :: r2)).map
                (fun fl => (GoVal.obj (buildObj fl.1), fl.2))) := by
  simp only [parseVal]
  rw [if_neg (by decide), if_neg (by decide), if_neg (by decide),
    if_neg (by decide), if_neg (by decide), if_pos trivial]

theorem wV_pos (v : GoVal) : 1 ≤ wV v := by
  match v with
  | GoVal.null => exact Nat.le_refl 1
  | GoVal.boolean _ => exact Nat.le_refl 1
  | GoVal.num _ _ => exact Nat.le_refl 1
  | GoVal.str _ => exact Nat.le_refl 1
  | GoVal.arr [] => exact Nat.le_refl 1
  | GoVal.arr (x :: xs) =>
      have : wV (GoVal.arr (x :: xs)) = 1 + wE (x :: xs) := rfl
      omega
  | GoVal.obj [] => exact Nat.le_refl 1
  | GoVal.obj (f :: fs) =>
      have : wV (GoVal.obj (f :: fs)) = 1 + wF (f :: fs) := rfl
      omega

mutual

theorem emitVal_rt (v : GoVal) (hc : isCanon v) (f : Nat) (rest : List Char)
    (hf : wV v ≤ f) (hsep : sepOk rest) :
    parseVal f (emitVal v ++ rest) = some (v, rest) := by
  have hf1 : 1 ≤ f := Nat.le_trans (wV_pos v) hf
  match f, hf1, hf with
  | Nat.succ f, _, hf =>
    match v, hc with
    | GoVal.null, _ =>
        show parseVal (Nat.succ f) ('n' :: 'u' :: 'l' :: 'l' :: rest) = _
        simp only [parseVal, reduceIte]
        rw [show ('u' :: 'l' :: 'l' :: rest) = ['u', 'l', 'l'] ++ rest from rfl]
        rw [stripLit_self]
        rfl
    | GoVal.boolean true, _ =>
        show parseVal (Nat.succ f) ('t' :: 'r' :: 'u' :: 'e' :: rest) = _
        simp only [parseVal, reduceIte]
        rw [show ('r' :: 'u' :: 'e' :: rest) = ['r', 'u', 'e'] ++ rest from rfl]
        rw [stripLit_self]
        rfl
    | GoVal.boolean false, _ =>
        show parseVal (Nat.succ f) ('f' :: 'a' :: 'l' :: 's' :: 'e' :: rest) = _
        simp only [parseVal, reduceIte]
        rw [show ('a' :: 'l' :: 's' :: 'e' :: rest)
            = ['a', 'l', 's', 'e'] ++ rest from rfl]
        rw [stripLit_self]
        rfl
    | GoVal.num m e, hc =>
        obtain ⟨c, t, hct, hcls⟩ := emitNum_head m e
        show parseVal (Nat.succ f) (emitNum m e ++ rest) = _
        rw [hct, List.cons_append, parseVal_step_num hcls, ← List.cons_append,
          ← hct]
        exact parseNum_emit hc.1 hc.2 hsep
    | GoVal.str s, _ =>
        show parseVal (Nat.succ f)
            ((('"' :: escBody s) ++ ['"']) ++ rest) = _
        rw [show (((('"' :: escBody s) ++ ['"']) ++ rest) : List Char)
            = '"' :: (escBody s ++ '"' :: rest) from by simp]
        rw [parseVal_step_quote]
        rw [parseStrF_emit s _ rest ?hfu]
        case hfu =>
          have := escBody_length s
          simp only [List.length_append, List.length_cons]
          omega
        rfl
    | GoVal.arr [], _ =>
        show parseVal (Nat.succ f) ('[' :: ']' :: rest) = _
        rw [parseVal_step_lbracket]
        rw [skipWS_cons_notWS (by decide)]
        simp
    | GoVal.arr (x :: xs), hc =>
        show parseVal (Nat.succ f)
            ((('[' :: (emitVal x ++ emitTail xs)) ++ [']']) ++ rest) = _
        rw [show ((('[' :: (emitVal x ++ emitTail xs)) ++ [']']) ++ rest
              : List Char)
            = '[' :: (emitVal x ++ (emitTail xs ++ ']' :: rest)) from by simp]
        rw [parseVal_step_lbracket]
        obtain ⟨c2, t2, hct2, hws2, hbr2, -⟩ := emitVal_head x
        rw [hct2, List.cons_append, skipWS_cons_notWS hws2]
        simp only [if_neg hbr2]
        rw [← List.cons_append, ← hct2]
        rw [emitElems_rt x xs hc.1 hc.2 f rest (by
          have : wV (GoVal.arr (x :: xs)) = 1 + wE (x :: xs) := rfl
          omega) hsep]
        rfl
    | GoVal.obj [], _ =>
        show parseVal (Nat.succ f) ('\x7b' :: '\x7d' :: rest) = _
        rw [parseVal_step_lbrace]
        rw [skipWS_cons_notWS (by decide)]
        simp
    | GoVal.obj ((k, v2) :: fs), hc =>
        show parseVal (Nat.succ f)
            ((('\x7b' :: (emitField (k, v2) ++ emitFTail fs)) ++ ['\x7d'])
              ++ rest) = _
        rw [show ((('\x7b' :: (emitField (k, v2) ++ emitFTail fs)) ++ ['\x7d'])
              ++ rest : List Char)
            = '\x7b' :: (emitField (k, v2)
                ++ (emitFTail fs ++ '\x7d' :: rest)) from by simp]
        rw [parseVal_step_lbrace]
        rw [show (emitField (k, v2) ++ (emitFTail fs ++ '\x7d' :: rest)
              : List Char)
            = '"' :: ((escBody k ++ ('"' :: ':' :: emitVal v2))
                ++ (emitFTail fs ++ '\x7d' :: rest)) from by
          simp [emitField]]
        rw [skipWS_cons_notWS (by decide)]
        simp only [if_neg (show ('"' : Char) ≠ '\x7d' from by decide)]
        try simp only [List.append_eq]
        rw [show ('"' :: ((escBody k ++ ('"' :: ':' :: emitVal v2))
              ++ (emitFTail fs ++ '\x7d' :: rest)) : List Char)
            = emitField (k, v2) ++ (emitFTail fs ++ '\x7d' :: rest) from by
          simp [emitField]]
        rw [emitFields_rt (k, v2) fs hc.2.1 hc.2.2 f rest (by
          have : wV (GoVal.obj ((k, v2) :: fs)) = 1 + wF ((k, v2) :: fs) := rfl
          omega) hsep]
        try simp only [Option.map_some, Option.map_some, Option.map]
        rw [buildObj_id hc.1]
termination_by sizeOf v

theorem emitElems_rt (x : GoVal) (xs : List GoVal) (hcx : isCanon x)
    (hcxs : isCanonList xs) (f : Nat) (rest : List Char)
    (hf : wE (x :: xs) ≤ f) (hsep : sepOk rest) :
    parseElems f (emitVal x ++ (emitTail xs ++ ']' :: rest))
      = some (x :: xs, rest) := by
  have hw : wE (x :: xs) = 1 + wV x + wE xs := rfl
  have hf1 : 1 ≤ f := by omega
  match f, hf1, hf with
  | Nat.succ f, _, hf =>
    simp only [parseElems]
    rw [emitVal_rt x hcx f (emitTail xs ++ ']' :: rest) (by omega)
      sepOk_emitTail]
    match xs, hcxs with
    | [], _ =>
        show (match skipWS (emitTail [] ++ ']' :: rest) with
          | [] => none
          | c2 :: r2 => _) = _
        rw [show (emitTail [] ++ ']' :: rest : List Char) = ']' :: rest from rfl]
        rw [skipWS_cons_notWS (by decide)]
        simp
    | y :: ys, hcxs =>
        show (match skipWS (emitTail (y :: ys) ++ ']' :: rest) with
          | [] => none
          | c2 :: r2 => _) = _
        rw [show (emitTail (y :: ys) ++ ']' :: rest : List Char)
            = ',' :: ((emitVal y ++ emitTail ys) ++ ']' :: rest) from by
          simp [emitTail]]
        rw [skipWS_cons_notWS (by decide)]
        simp only [reduceIte]
        try simp only [List.append_eq]
        obtain ⟨c3, t3, hct3, hws3, -, -⟩ := emitVal_head y
        rw [show ((emitVal y ++ emitTail ys) ++ ']' :: rest : List Char)
            = emitVal y ++ (emitTail ys ++ ']' :: rest) from by simp]
        rw [hct3, List.cons_append, skipWS_cons_notWS hws3, ← List.cons_append,
          ← hct3]
        rw [emitElems_rt y ys hcxs.1 hcxs.2 f rest (by
          have h1 : wE (y :: ys) = 1 + wV y + wE ys := rfl
          omega) hsep]
termination_by sizeOf (x :: xs)

theorem emitFields_rt (kv : List Char × GoVal) (fs : List (List Char × GoVal))
    (hckv : isCanon kv.2) (hcfs : isCanonFields fs) (f : Nat) (rest : List Char)
    (hf : wF (kv :: fs) ≤ f) (hsep : sepOk rest) :
    parseFields f (emitField kv ++ (emitFTail fs ++ '\x7d' :: rest))
      = some (kv :: fs, rest) := by
  have hw : wF (kv :: fs) = 1 + wV kv.2 + wF fs := rfl
  have hf1 : 1 ≤ f := by omega
  match f, hf1, hf with
  | Nat.succ f, _, hf =>
    match kv, hckv, hf with
    | (k, v), hckv, hf =>
      rw [show (emitField (k, v) ++ (emitFTail fs ++ '\x7d' :: rest)
            : List Char)
          = '"' :: (escBody k ++ '"' :: (':'
              :: (emitVal v ++ (emitFTail fs ++ '\x7d' :: rest)))) from by
        simp [emitField]]
      simp only [parseFields, reduceIte]
      rw [parseStrF_emit k _ _ ?hfu]
      case hfu =>
        have := escBody_length k
        simp only [List.length_append, List.length_cons]
        omega
      simp only []
      rw [skipWS_cons_notWS (by decide)]
      simp only [reduceIte]
      obtain ⟨c3, t3, hct3, hws3, -, -⟩ := emitVal_head v
      rw [hct3, List.cons_append, skipWS_cons_notWS hws3, ← List.cons_append,
        ← hct3]
      rw [emitVal_rt v hckv f (emitFTail fs ++ '\x7d' :: rest) (by
        simp only [hw] at hf
        omega) sepOk_emitFTail]
      match fs, hcfs with
      | [], _ =>
          show (match skipWS (emitFTail [] ++ '\x7d' :: rest) with
            | [] => none
            | c4 :: r4 => _) = _
          rw [show (emitFTail [] ++ '\x7d' :: rest : List Char)
              = '\x7d' :: rest from rfl]
          rw [skipWS_cons_notWS (by decide)]
          simp
      | (k2, v2) :: gs, hcfs =>
          show (match skipWS (emitFTail ((k2, v2) :: gs) ++ '\x7d' :: rest) with
            | [] => none
            | c4 :: r4 => _) = _
          rw [show (emitFTail ((k2, v2) :: gs) ++ '\x7d' :: rest : List Char)
              = ',' :: ((emitField (k2, v2) ++ emitFTail gs)
                  ++ '\x7d' :: rest) from by simp [emitFTail]]
          rw [skipWS_cons_notWS (by decide)]
          simp only [reduceIte]
          try simp only [List.append_eq]
          rw [show ((emitField (k2, v2) ++ emitFTail gs) ++ '\x7d' :: rest
                : List Char)
              = '"' :: ((escBody k2 ++ ('"' :: ':' :: emitVal v2))
                  ++ (emitFTail gs ++ '\x7d' :: rest)) from by
            simp [emitField]]
          rw [skipWS_cons_notWS (by decide)]
          rw [show ('"' :: ((escBody k2 ++ ('"' :: ':' :: emitVal v2))
                ++ (emitFTail gs ++ '\x7d' :: rest)) : List Char)
              = emitField (k2, v2) ++ (emitFTail gs ++ '\x7d' :: rest) from by
            simp [emitField]]
          rw [emitFields_rt (k2, v2) gs hcfs.1 hcfs.2 f rest (by
            have h1 : wF ((k2, v2) :: gs) = 1 + wV v2 + wF gs := rfl
            simp only [hw] at hf
            omega) hsep]
termination_by sizeOf (kv :: fs)

end

mutual

theorem wV_le_emit (v : GoVal) : wV v ≤ (emitVal v).length := by
  match v with
  | GoVal.null =>
      have h1 : wV GoVal.null = 1 := rfl
      have h2 : (emitVal GoVal.null).length = 4 := rfl
      omega
  | GoVal.boolean true =>
      have h1 : wV (GoVal.boolean true) = 1 := rfl
      have h2 : (emitVal (GoVal.boolean true)).length = 4 := rfl
      omega
  | GoVal.boolean false =>
      have h1 : wV (GoVal.boolean false) = 1 := rfl
      have h2 : (emitVal (GoVal.boolean false)).length = 5 := rfl
      omega
  | GoVal.num m e =>
      have h1 : wV (GoVal.num m e) = 1 := rfl
      obtain ⟨c, t, hct, -⟩ := emitNum_head m e
      have h2 : emitVal (GoVal.num m e) = emitNum m e := rfl
      rw [h1, h2, hct]
      simp
  | GoVal.str s =>
      have h1 : wV (GoVal.str s) = 1 := rfl
      have h2 : emitVal (GoVal.str s) = ('"' :: escBody s) ++ ['"'] := rfl
      rw [h1, h2]
      simp
  | GoVal.arr [] =>
      have h1 : wV (GoVal.arr []) = 1 := rfl
      have h2 : (emitVal (GoVal.arr [])).length = 2 := rfl
      omega
  | GoVal.arr (x :: xs) =>
      have h1 : wV (GoVal.arr (x :: xs)) = 1 + wE (x :: xs) := rfl
      have h2 : emitVal (GoVal.arr (x :: xs))
          = ('[' :: (emitVal x ++ emitTail xs)) ++ [']'] := rfl
      have h3 : (emitTail (x :: xs)).length
          = 1 + (emitVal x).length + (emitTail xs).length := by
        have : emitTail (x :: xs) = ',' :: (emitVal x ++ emitTail xs) := rfl
        rw [this]
        simp
        omega
      have h4 := wE_le_emit (x :: xs)
      rw [h1, h2]
      simp only [List.length_append, List.length_cons]
      omega
  | GoVal.obj [] =>
      have h1 : wV (GoVal.obj []) = 1 := rfl
      have h2 : (emitVal (GoVal.obj [])).length = 2 := rfl
      omega
  | GoVal.obj (kv :: fs) =>
      have h1 : wV (GoVal.obj (kv :: fs)) = 1 + wF (kv :: fs) := rfl
      have h2 : emitVal (GoVal.obj (kv :: fs))
          = ('\x7b' :: (emitField kv ++ emitFTail fs)) ++ ['\x7d'] := rfl
      have h3 : (emitFTail (kv :: fs)).length
          = 1 + (emitField kv).length + (emitFTail fs).length := by
        have : emitFTail (kv :: fs) = ',' :: (emitField kv ++ emitFTail fs) := rfl
        rw [this]
        simp
        omega
      have h4 := wF_le_emit (kv :: fs)
      rw [h1, h2]
      simp only [List.length_append, List.length_cons]
      omega

theorem wE_le_emit (xs : List GoVal) : wE xs ≤ (emitTail xs).length := by
  match xs with
  | [] =>
      have h1 : wE [] = 0 := rfl
      omega
  | x :: xs =>
      have h1 : wE (x :: xs) = 1 + wV x + wE xs := rfl
      have h2 : emitTail (x :: xs) = ',' :: (emitVal x ++ emitTail xs) := rfl
      have h3 := wV_le_emit x
      have h4 := wE_le_emit xs
      rw [h1, h2]
      simp only [List.length_cons, List.length_append]
      omega

theorem wF_le_emit (fs : List (List Char × GoVal)) :
    wF fs ≤ (emitFTail fs).length := by
  match fs with
  | [] =>
      have h1 : wF [] = 0 := rfl
      omega
  | (k, v) :: fs =>
      have h1 : wF ((k, v) :: fs) = 1 + wV v + wF fs := rfl
      have h2 : emitFTail ((k, v) :: fs)
          = ',' :: (emitField (k, v) ++ emitFTail fs) := rfl
      have h3 : emitField (k, v) = ('"' :: escBody k) ++ '"' :: ':' :: emitVal v :=
        rfl
      have h4 := wV_le_emit v
      have h5 := wF_le_emit fs
      rw [h1, h2]
      simp only [List.length_cons, List.length_append, h3]
      omega

end

/-- Top-level round trip: the canonical encoder's output re-parses to
the same tree. -/
theorem parseJSONText_emit (v : GoVal) (hc : isCanon v) :
    parseJSONText (emitVal v) = some v := by
  obtain ⟨c, t, hct, hws, -, -⟩ := emitVal_head v
  have hskip : skipWS (emitVal v) = emitVal v := by
    rw [hct]
    exact skipWS_cons_notWS hws
  have hfuel : wV v ≤ (emitVal v).length + 1 := by
    have := wV_le_emit v
    omega
  have hparse : parseVal ((emitVal v).length + 1) (emitVal v ++ [])
      = some (v, []) :=
    emitVal_rt v hc ((emitVal v).length + 1) [] hfuel trivial
  rw [List.append_nil] at hparse
  simp only [parseJSONText, hskip, hparse]
  rfl

/-! ### Every parsed tree is canonical -/

theorem parseNumBody_canon {neg : Bool} {cs : List Char} {v : GoVal}
    {rest : List Char} (h : parseNumBody neg cs = some (v, rest)) :
    isCanon v := by
  match cs with
  | [] => simp [parseNumBody] at h
  | c :: r =>
      simp only [parseNumBody] at h
      split_ifs at h with h1 h2
      · match r with
        | [] =>
            simp only [Option.some.injEq, Prod.mk.injEq] at h
            rw [← h.1]
            exact mkNum_canon neg 0 0
        | d :: r2 =>
            repeat' split at h
            all_goals
              first
              | (simp only [Option.some.injEq, Prod.mk.injEq] at h
                 rw [← h.1]
                 exact mkNum_canon _ _ _)
              | (rw [← h.1]
                 exact mkNum_canon _ _ _)
              | simp at h
      · repeat' split at h
        all_goals
          first
          | (simp only [Option.some.injEq, Prod.mk.injEq] at h
             rw [← h.1]
             exact mkNum_canon _ _ _)
          | (rw [← h.1]
             exact mkNum_canon _ _ _)
          | simp at h

theorem parseNum_canon {cs : List Char} {v : GoVal} {rest : List Char}
    (h : parseNum cs = some (v, rest)) : isCanon v := by
  match cs with
  | [] => simp [parseNum] at h
  | c :: r =>
      simp only [parseNum] at h
      split_ifs at h <;> exact parseNumBody_canon h

theorem parse_canon (f : Nat) :
    (∀ cs v rest, parseVal f cs = some (v, rest) → isCanon v)
    ∧ (∀ cs vs rest, parseElems f cs = some (vs, rest) → isCanonList vs)
    ∧ (∀ cs ps rest, parseFields f cs = some (ps, rest) →
        isCanonFields ps) := by
  induction f with
  | zero =>
      refine ⟨?_, ?_, ?_⟩ <;> intro cs a rest h <;> simp [parseVal, parseElems,
        parseFields] at h
  | succ f ih =>
      obtain ⟨ihV, ihE, ihF⟩ := ih
      refine ⟨?_, ?_, ?_⟩
      · intro cs v rest h
        match cs with
        | [] => simp [parseVal] at h
        | c :: r =>
            simp only [parseVal] at h
            split_ifs at h with h1 h2 h3 h4 h5 h6
            · simp only [Option.map_eq_some', Prod.mk.injEq] at h
              obtain ⟨a, -, hv, -⟩ := h
              rw [← hv]
              trivial
            · simp only [Option.map_eq_some', Prod.mk.injEq] at h
              obtain ⟨a, -, hv, -⟩ := h
              rw [← hv]
              trivial
            · simp only [Option.map_eq_some', Prod.mk.injEq] at h
              obtain ⟨a, -, hv, -⟩ := h
              rw [← hv]
              trivial
            · simp only [Option.map_eq_some', Prod.mk.injEq] at h
              obtain ⟨a, -, hv, -⟩ := h
              rw [← hv]
              trivial
            · split at h
              · simp at h
              · split_ifs at h with h7
                · simp only [Option.some.injEq, Prod.mk.injEq] at h
                  rw [← h.1]
                  show isCanonList []
                  trivial
                · simp only [Option.map_eq_some', Prod.mk.injEq] at h
                  obtain ⟨a, ha, hv, -⟩ := h
                  rw [← hv]
                  show isCanonList a.1
                  exact ihE _ a.1 a.2 (by rw [ha])
            · split at h
              · simp at h
              · split_ifs at h with h7
                · simp only [Option.some.injEq, Prod.mk.injEq] at h
                  rw [← h.1]
                  exact ⟨buildObj_sorted [], trivial⟩
                · simp only [Option.map_eq_some', Prod.mk.injEq] at h
                  obtain ⟨a, ha, hv, -⟩ := h
                  rw [← hv]
                  refine ⟨buildObj_sorted a.1, ?_⟩
                  rw [isCanonFields_iff]
                  intro p hp
                  have hmem := buildObj_mem hp
                  have hfields := ihF _ a.1 a.2 (by rw [ha])
                  rw [isCanonFields_iff] at hfields
                  exact hfields p hmem
            · exact parseNum_canon h
      · intro cs vs rest h
        simp only [parseElems] at h
        split at h
        · simp at h
        · rename_i v1 r1 hp
          split at h
          · simp at h
          · rename_i c2 r2 hskip
            split_ifs at h with h1 h2
            · split at h
              · simp at h
              · rename_i vs2 q hq
                simp only [Option.some.injEq, Prod.mk.injEq] at h
                rw [← h.1]
                exact ⟨ihV _ v1 r1 hp, ihE _ vs2 q hq⟩
            · simp only [Option.some.injEq, Prod.mk.injEq] at h
              rw [← h.1]
              exact ⟨ihV _ v1 r1 hp, trivial⟩
      · intro cs ps rest h
        match cs with
        | [] => simp [parseFields] at h
        | c :: r =>
            simp only [parseFields] at h
            split_ifs at h with h1
            · split at h
              · simp at h
              · rename_i k1 r1 hp
                split at h
                · simp at h
                · rename_i c2 r2 hskip
                  split_ifs at h with h2
                  · split at h
                    · simp at h
                    · rename_i v1 r3 hq
                      split at h
                      · simp at h
                      · rename_i c3 r4 hskip2
                        split_ifs at h with h3 h4
                        · split at h
                          · simp at h
                          · rename_i fs1 r5 hw
                            simp only [Option.some.injEq, Prod.mk.injEq] at h
                            rw [← h.1]
                            exact ⟨ihV _ v1 r3 hq, ihF _ fs1 r5 hw⟩
                        · simp only [Option.some.injEq, Prod.mk.injEq] at h
                          rw [← h.1]
                          exact ⟨ihV _ v1 r3 hq, trivial⟩

theorem parseJSONText_canon {cs : List Char} {v : GoVal}
    (h : parseJSONText cs = some v) : isCanon v := by
  simp only [parseJSONText] at h
  split at h
  · simp at h
  · rename_i v1 r1 hp
    split_ifs at h with hskip
    all_goals simp only [Option.some.injEq] at h
    rw [← h]
    exact (parse_canon _).1 _ v1 r1 hp

/-! ### The encoder never emits a literal angle bracket or ampersand -/

theorem hexDigChar_no_angle {d : Nat} (hd : d < 16) :
    hexDigChar d ≠ '<' ∧ hexDigChar d ≠ '>' ∧ hexDigChar d ≠ '&' := by
  interval_cases d <;> exact ⟨by decide, by decide, by decide⟩

theorem escapeChar_no_angle (c0 : Char) :
    ∀ c ∈ escapeChar c0, c ≠ '<' ∧ c ≠ '>' ∧ c ≠ '&' := by
  intro c hc
  simp only [escapeChar] at hc
  split_ifs at hc with h1 h2 h3 h4 h5 h6 h7 h8 h9 h10 h11
  all_goals simp only [List.mem_cons, List.mem_singleton,
    List.not_mem_nil, or_false] at hc
  · rcases hc with rfl | rfl <;> exact ⟨by decide, by decide, by decide⟩
  · rcases hc with rfl | rfl <;> exact ⟨by decide, by decide, by decide⟩
  · rcases hc with rfl | rfl <;> exact ⟨by decide, by decide, by decide⟩
  · rcases hc with rfl | rfl <;> exact ⟨by decide, by decide, by decide⟩
  · rcases hc with rfl | rfl <;> exact ⟨by decide, by decide, by decide⟩
  · rcases hc with rfl | rfl | rfl | rfl | rfl | rfl
    · exact ⟨by decide, by decide, by decide⟩
    · exact ⟨by decide, by decide, by decide⟩
    · exact ⟨by decide, by decide, by decide⟩
    · exact ⟨by decide, by decide, by decide⟩
    · exact hexDigChar_no_angle (by omega)
    · exact hexDigChar_no_angle (by omega)
  · rcases hc with rfl | rfl | rfl | rfl | rfl | rfl <;>
      exact ⟨by decide, by decide, by decide⟩
  · rcases hc with rfl | rfl | rfl | rfl | rfl | rfl <;>
      exact ⟨by decide, by decide, by decide⟩
  · rcases hc with rfl | rfl | rfl | rfl | rfl | rfl <;>
      exact ⟨by decide, by decide, by decide⟩
  · rcases hc with rfl | rfl | rfl | rfl | rfl | rfl <;>
      exact ⟨by decide, by decide, by decide⟩
  · rcases hc with rfl | rfl | rfl | rfl | rfl | rfl <;>
      exact ⟨by decide, by decide, by decide⟩
  · rw [hc]
    exact ⟨h7, h8, h9⟩

theorem escBody_no_angle (s : List Char) :
    ∀ c ∈ escBody s, c ≠ '<' ∧ c ≠ '>' ∧ c ≠ '&' := by
  induction s with
  | nil => simp [escBody]
  | cons c0 s ih =>
      intro c hc
      simp only [escBody, List.mem_append] at hc
      rcases hc with hc | hc
      · exact escapeChar_no_angle c0 c hc
      · exact ih c hc

theorem digit_no_angle {c : Char} (h : isDigit c = true) :
    c ≠ '<' ∧ c ≠ '>' ∧ c ≠ '&' := by
  rw [isDigit_iff] at h
  exact ⟨char_ne_of_toNat_ne (by simp; omega),
    char_ne_of_toNat_ne (by simp; omega),
    char_ne_of_toNat_ne (by simp; omega)⟩

theorem emitInt_no_angle (i : Int) :
    ∀ c ∈ emitInt i, c ≠ '<' ∧ c ≠ '>' ∧ c ≠ '&' := by
  intro c hc
  simp only [emitInt, List.mem_append] at hc
  rcases hc with hc | hc
  · split_ifs at hc
    · simp only [List.mem_singleton] at hc
      rw [hc]
      exact ⟨by decide, by decide, by decide⟩
    · simp at hc
  · exact digit_no_angle (natDigits_all_digits c hc)

theorem emitNum_no_angle (m e : Int) :
    ∀ c ∈ emitNum m e, c ≠ '<' ∧ c ≠ '>' ∧ c ≠ '&' := by
  intro c hc
  simp only [emitNum] at hc
  split_ifs at hc with h1
  · simp only [List.mem_singleton] at hc
    rw [hc]
    exact ⟨by decide, by decide, by decide⟩
  · simp only [List.mem_append] at hc
    rcases hc with hc | hc
    · exact emitInt_no_angle m c hc
    · simp only [expPart] at hc
      split_ifs at hc
      · simp at hc
      · simp only [List.mem_cons] at hc
        rcases hc with rfl | hc
        · exact ⟨by decide, by decide, by decide⟩
        · exact emitInt_no_angle e c hc

mutual

theorem emitVal_no_angle (v : GoVal) :
    ∀ c ∈ emitVal v, c ≠ '<' ∧ c ≠ '>' ∧ c ≠ '&' := by
  match v with
  | GoVal.null =>
      intro c hc
      simp only [show emitVal GoVal.null = ['n', 'u', 'l', 'l'] from rfl,
        List.mem_cons, List.not_mem_nil, or_false] at hc
      rcases hc with rfl | rfl | rfl | rfl <;>
        exact ⟨by decide, by decide, by decide⟩
  | GoVal.boolean true =>
      intro c hc
      simp only [show emitVal (GoVal.boolean true) = ['t', 'r', 'u', 'e'] from
        rfl, List.mem_cons, List.not_mem_nil, or_false] at hc
      rcases hc with rfl | rfl | rfl | rfl <;>
        exact ⟨by decide, by decide, by decide⟩
  | GoVal.boolean false =>
      intro c hc
      simp only [show emitVal (GoVal.boolean false)
          = ['f', 'a', 'l', 's', 'e'] from rfl,
        List.mem_cons, List.not_mem_nil, or_false] at hc
      rcases hc with rfl | rfl | rfl | rfl | rfl <;>
        exact ⟨by decide, by decide, by decide⟩
  | GoVal.num m e =>
      intro c hc
      exact emitNum_no_angle m e c hc
  | GoVal.str s =>
      intro c hc
      simp only [show emitVal (GoVal.str s) = ('"' :: escBody s) ++ ['"'] from
        rfl, List.mem_append, List.mem_cons, List.mem_singleton,
        List.not_mem_nil, or_false] at hc
      rcases hc with (rfl | hc) | rfl
      · exact ⟨by decide, by decide, by decide⟩
      · exact escBody_no_angle s c hc
      · exact ⟨by decide, by decide, by decide⟩
  | GoVal.arr [] =>
      intro c hc
      simp only [show emitVal (GoVal.arr []) = ['[', ']'] from rfl,
        List.mem_cons, List.not_mem_nil, or_false] at hc
      rcases hc with rfl | rfl <;> exact ⟨by decide, by decide, by decide⟩
  | GoVal.arr (x :: xs) =>
      intro c hc
      simp only [show emitVal (GoVal.arr (x :: xs))
          = ('[' :: (emitVal x ++ emitTail xs)) ++ [']'] from rfl,
        List.mem_append, List.mem_cons, List.mem_singleton,
        List.not_mem_nil, or_false] at hc
      rcases hc with (rfl | hc | hc) | rfl
      · exact ⟨by decide, by decide, by decide⟩
      · exact emitVal_no_angle x c hc
      · exact emitTail_no_angle xs c hc
      · exact ⟨by decide, by decide, by decide⟩
  | GoVal.obj [] =>
      intro c hc
      simp only [show emitVal (GoVal.obj []) = ['\x7b', '\x7d'] from rfl,
        List.mem_cons, List.not_mem_nil, or_false] at hc
      rcases hc with rfl | rfl <;> exact ⟨by decide, by decide, by decide⟩
  | GoVal.obj (kv :: fs) =>
      intro c hc
      simp only [show emitVal (GoVal.obj (kv :: fs))
          = ('\x7b' :: (emitField kv ++ emitFTail fs)) ++ ['\x7d'] from rfl,
        List.mem_append, List.mem_cons, List.mem_singleton,
        List.not_mem_nil, or_false] at hc
      rcases hc with (rfl | hc | hc) | rfl
      · exact ⟨by decide, by decide, by decide⟩
      · exact emitField_no_angle kv c hc
      · exact emitFTail_no_angle fs c hc
      · exact ⟨by decide, by decide, by decide⟩
termination_by sizeOf v

theorem emitTail_no_angle (xs : List GoVal) :
    ∀ c ∈ emitTail xs, c ≠ '<' ∧ c ≠ '>' ∧ c ≠ '&' := by
  match xs with
  | [] =>
      intro c hc
      simp [show emitTail ([] : List GoVal) = [] from rfl] at hc
  | x :: xs =>
      intro c hc
      simp only [show emitTail (x :: xs) = ',' :: (emitVal x ++ emitTail xs)
          from rfl, List.mem_cons, List.mem_append] at hc
      rcases hc with rfl | hc | hc
      · exact ⟨by decide, by decide, by decide⟩
      · exact emitVal_no_angle x c hc
      · exact emitTail_no_angle xs c hc
termination_by sizeOf xs

theorem emitField_no_angle (kv : List Char × GoVal) :
    ∀ c ∈ emitField kv, c ≠ '<' ∧ c ≠ '>' ∧ c ≠ '&' := by
  match kv with
  | (k, v) =>
      intro c hc
      simp only [show emitField (k, v)
          = ('"' :: escBody k) ++ '"' :: ':' :: emitVal v from rfl,
        List.mem_append, List.mem_cons] at hc
      rcases hc with (rfl | hc) | rfl | rfl | hc
      · exact ⟨by decide, by decide, by decide⟩
      · exact escBody_no_angle k c hc
      · exact ⟨by decide, by decide, by decide⟩
      · exact ⟨by decide, by decide, by decide⟩
      · exact emitVal_no_angle v c hc
termination_by sizeOf kv

theorem emitFTail_no_angle (fs : List (List Char × GoVal)) :
    ∀ c ∈ emitFTail fs, c ≠ '<' ∧ c ≠ '>' ∧ c ≠ '&' := by
  match fs with
  | [] =>
      intro c hc
      simp [show emitFTail ([] : List (List Char × GoVal)) = [] from rfl] at hc
  | kv :: fs =>
      intro c hc
      simp only [show emitFTail (kv :: fs)
          = ',' :: (emitField kv ++ emitFTail fs) from rfl,
        List.mem_cons, List.mem_append] at hc
      rcases hc with rfl | hc | hc
      · exact ⟨by decide, by decide, by decide⟩
      · exact emitField_no_angle kv c hc
      · exact emitFTail_no_angle fs c hc
termination_by sizeOf fs

end

/-- Claim C10: `JSONConcat` is associative with the zero value `JSON{}`
(the wrapper of the empty string) as identity: nesting does not change
the result, a single argument is returned textually unchanged, and
concatenating with the zero value on either side is the identity on
`String()`. -/
theorem C10_concat_assoc_identity :
    (∀ a b c : JSON,
        (JSONConcat [JSONConcat [a, b], c]).String
          = (JSONConcat [a, JSONConcat [b, c]]).String)
    ∧ (∀ a : JSON, (JSONConcat [a]).String = a.String)
    ∧ (∀ a : JSON, (JSONConcat [{ str := "" }, a]).String = a.String)
    ∧ (∀ a : JSON, (JSONConcat [a, { str := "" }]).String = a.String) := by
  refine ⟨?_, ?_, ?_, ?_⟩
  · intro a b c
    rw [jsonConcat_pair, jsonConcat_pair, jsonConcat_pair, jsonConcat_pair]
    simp only [JSON.String]
    rw [String.append_assoc]
  · intro a
    simp [jsonConcat_str]
  · intro a
    rw [jsonConcat_pair]
    simp only [JSON.String]
    exact String.empty_append _
  · intro a
    rw [jsonConcat_pair]
    simp only [JSON.String]
    exact String.append_empty _

/-- Claim C1: for every syntactically valid JSON text `T` (one the
strict parser accepts, yielding the tree `v`), `JSONFromValue T`
returns a nil error together with the re-emitted canonical text, and
re-parsing that returned `String()` yields exactly the tree `v` parsed
from `T` — values and keys preserved, whitespace and formatting not. -/
theorem C1_roundtrip_success (T : Str) (v : GoVal)
    (h : goUnmarshal T = some v) :
    JSONFromValue T = ({ str := String.mk (emitVal v) }, none)
    ∧ goUnmarshal (String.mk (emitVal v)) = some v := by
  have hc : isCanon v := parseJSONText_canon h
  constructor
  · simp only [JSONFromValue, h, goMarshal]
  · exact parseJSONText_emit v hc

theorem C1_roundtrip_success_witness :
    goUnmarshal "\x7b\"a\": 1, \"b\": [true, null]\x7d"
      = some (GoVal.obj [(['a'], GoVal.num 1 0),
          (['b'], GoVal.arr [GoVal.boolean true, GoVal.null])])
    ∧ (JSONFromValue "\x7b\"a\": 1, \"b\": [true, null]\x7d"
        = ({ str := "\x7b\"a\":1,\"b\":[true,null]\x7d" }, none)
      ∧ goUnmarshal "\x7b\"a\":1,\"b\":[true,null]\x7d"
        = some (GoVal.obj [(['a'], GoVal.num 1 0),
            (['b'], GoVal.arr [GoVal.boolean true, GoVal.null])])) :=
  ⟨rfl, C1_roundtrip_success "\x7b\"a\": 1, \"b\": [true, null]\x7d"
    (GoVal.obj [(['a'], GoVal.num 1 0),
      (['b'], GoVal.arr [GoVal.boolean true, GoVal.null])]) rfl⟩

/-- Claim C2: when the parse step fails, `JSONFromValue` returns the
zero value `JSON\x7b\x7d` (whose `String()` is empty) together with the
non-nil parse error; and in the defensive branch — re-serialization
failing after a successful parse — it likewise returns the zero value
together with that serialization error. -/
theorem C2_invalid_input_rejected (T : Str) :
    (goUnmarshal T = none →
      JSONFromValue T = ({ str := "" }, some GoJSONError.unmarshalError))
    ∧ (∀ x e, goUnmarshal T = some x → goMarshal x = Except.error e →
      JSONFromValue T = ({ str := "" }, some e)) := by
  constructor
  · intro h
    simp only [JSONFromValue, h]
  · intro x e hx he
    simp only [JSONFromValue, hx, he]

theorem C2_invalid_input_rejected_witness :
    JSONFromValue "\x7binvalid"
      = ({ str := "" }, some GoJSONError.unmarshalError)
    ∧ JSONFromValue "not json"
      = ({ str := "" }, some GoJSONError.unmarshalError) :=
  ⟨(C2_invalid_input_rejected "\x7binvalid").1 rfl,
    (C2_invalid_input_rejected "not json").1 rfl⟩

/-- Claim C8: whenever `JSONFromValue` succeeds, the `str` of the
returned `JSON` contains no literal `<`, `>` or `&` character: the
encoder emits them only in the escaped forms `\u003c`, `\u003e`,
`\u0026`, so a sequence such as `</script>` can never appear verbatim
in the output text. -/
theorem C8_no_raw_angle_or_amp (T : Str) (j : JSON)
    (h : JSONFromValue T = (j, none)) :
    '<' ∉ j.str.data ∧ '>' ∉ j.str.data ∧ '&' ∉ j.str.data := by
  unfold JSONFromValue at h
  cases hu : goUnmarshal T with
  | none =>
      rw [hu] at h
      simp at h
  | some x =>
      rw [hu] at h
      simp only [goMarshal, Prod.mk.injEq] at h
      obtain ⟨hj, -⟩ := h
      rw [← hj]
      exact ⟨fun hm => (emitVal_no_angle x '<' hm).1 rfl,
        fun hm => (emitVal_no_angle x '>' hm).2.1 rfl,
        fun hm => (emitVal_no_angle x '&' hm).2.2 rfl⟩

theorem C8_no_raw_angle_or_amp_witness :
    JSONFromValue "\"</script>\""
      = ({ str := "\"\\u003c/script\\u003e\"" }, none)
    ∧ ('<' ∉ ("\"\\u003c/script\\u003e\"" : Str).data
      ∧ '>' ∉ ("\"\\u003c/script\\u003e\"" : Str).data
      ∧ '&' ∉ ("\"\\u003c/script\\u003e\"" : Str).data) :=
  ⟨rfl, C8_no_raw_angle_or_amp "\"</script>\""
    { str := "\"\\u003c/script\\u003e\"" } rfl⟩

/-- Claim C9: `JSONFromValue` is idempotent as a canonicalizer: if it
succeeds on `T` with result `j` and a nil error, then applying it to
`j.String()` succeeds again and returns the very same `j` (same
`String()`) with a nil error. -/
theorem C9_idempotent (T : Str) (j : JSON)
    (h : JSONFromValue T = (j, none)) :
    JSONFromValue j.String = (j, none) := by
  unfold JSONFromValue at h
  cases hu : goUnmarshal T with
  | none =>
      rw [hu] at h
      simp at h
  | some x =>
      rw [hu] at h
      simp only [goMarshal, Prod.mk.injEq] at h
      obtain ⟨hj, -⟩ := h
      have hc : isCanon x := parseJSONText_canon hu
      have hu2 : goUnmarshal (String.mk (emitVal x)) = some x :=
        parseJSONText_emit x hc
      rw [← hj]
      simp only [JSONFromValue, JSON.String, hu2, goMarshal]

theorem C9_idempotent_witness :
    JSONFromValue "[ 1, true ]" = ({ str := "[1,true]" }, none)
    ∧ JSONFromValue "[1,true]" = ({ str := "[1,true]" }, none) :=
  ⟨rfl, C9_idempotent "[ 1, true ]" { str := "[1,true]" } rfl⟩
